import Mathlib

/-!
Verification of the streaming Markdown renderer (core: `parser.ts`,
`worker-parser.ts` (two StreamProcessor variants), `renderer.ts`,
`markdown.worker.ts`).

Text is modelled as `List Char`.  Strings appearing in the code
(`'\n\n'`, fence markers, `'__temp__'`, ...) are embedded through
`String.toList` so that all definitions are executable.
-/

namespace MarkdownStream

abbrev Text := List Char

/-- Convert a string literal into the `List Char` text model. -/
def toText (s : String) : Text := s.toList

/-- The backtick character (code point 96). -/
def btChar : Char := Char.ofNat 96

/-- Three backticks, the code-fence marker `'\x60\x60\x60'`. -/
def bt3 : Text := [btChar, btChar, btChar]

/-- Whitespace characters recognised by the JS `\s` class / `trim()`
(ASCII subset, sufficient for the modelled inputs). -/
def isWsChar (c : Char) : Bool :=
  c == ' ' || c == '\t' || c == '\n' || c == '\r' ||
  c == Char.ofNat 11 || c == Char.ofNat 12

/-- JS `String.prototype.trim`: strip leading and trailing whitespace. -/
def trim (l : Text) : Text :=
  ((l.dropWhile isWsChar).reverse.dropWhile isWsChar).reverse

/-- Concatenation of a list of texts (JS `array.join('')`). -/
def concatAll (ls : List Text) : Text := ls.foldr (· ++ ·) []

/-- `WsDel a b`: `a` is obtained from `b` by deleting only whitespace
characters (order of the remaining characters preserved). -/
inductive WsDel : Text → Text → Prop
  | nil : WsDel [] []
  | keep (c : Char) {l m : Text} : WsDel l m → WsDel (c :: l) (c :: m)
  | del (c : Char) {l m : Text} : isWsChar c = true → WsDel l m → WsDel l (c :: m)

/-- JS `str.split('\n')` on the text model. -/
def splitNl : Text → List Text
  | [] => [[]]
  | c :: rest =>
    if c = '\n' then [] :: splitNl rest
    else
      match splitNl rest with
      | [] => [[c]]
      | l :: ls => (c :: l) :: ls

/-- JS `lines.join('\n')`. -/
def joinLines : List Text → Text
  | [] => []
  | [l] => l
  | l :: l2 :: ls => l ++ '\n' :: joinLines (l2 :: ls)

/-- JS `str.indexOf('\n\n')`, returned as the decomposition around the
first occurrence: `breakNN l = some (pre, post)` iff the first `"\n\n"`
occurs right after `pre`, with `post` the text after it. -/
def breakNN : Text → Option (Text × Text)
  | [] => none
  | [_] => none
  | c :: c2 :: rest =>
    if c = '\n' ∧ c2 = '\n' then some ([], rest)
    else
      match breakNN (c2 :: rest) with
      | some (pre, post) => some (c :: pre, post)
      | none => none

/-- Punctuation class of the regex `([.!?。！？])` in
`extractCompleteBlocks` (variant A). -/
def isPunct (c : Char) : Bool :=
  c == '.' || c == '!' || c == '?' || c == '。' || c == '！' || c == '？'

/-- Leftmost match of the regex `([.!?。！？])\s+`:
returns `(textBefore, punctuation, textAfterTheWhitespaceRun)`. -/
def findSent : Text → Option (Text × Char × Text)
  | [] => none
  | [_] => none
  | c :: c2 :: rest =>
    if isPunct c ∧ isWsChar c2 then some ([], c, (c2 :: rest).dropWhile isWsChar)
    else
      match findSent (c2 :: rest) with
      | some (pre, p, rem) => some (c :: pre, p, rem)
      | none => none

/-- JS `buffer.split(/([.!?。！？])\s+/)` (split keeping the captured
punctuation).  The fuel argument only bounds the number of matches; each
match consumes at least two characters, so `l.length` fuel is never
exhausted and the fuel clause is unreachable. -/
def sentSplitAux : Nat → Text → List Text
  | 0, l => [l]
  | fuel + 1, l =>
    match findSent l with
    | none => [l]
    | some (pre, p, rem) => pre :: [p] :: sentSplitAux fuel rem

/-- JS `buffer.split(/([.!?。！？])\s+/)`. -/
def sentSplit (l : Text) : List Text := sentSplitAux l.length l

/-- Shape of the array produced by a JS split with one capture group:
text, punctuation, text, punctuation, ..., text. -/
inductive SShape : List Text → Prop
  | single (t : Text) : SShape [t]
  | more (t : Text) (p : Char) {rest : List Text} : SShape rest → SShape (t :: [p] :: rest)

/-- Marker test of variant A's line loop:
`line.startsWith('#') || line.startsWith('\x60\x60\x60') || line.includes('|')`
on the trimmed line. -/
def isMarkerLine (line : Text) : Bool :=
  let t := trim line
  (toText "#").isPrefixOf t || bt3.isPrefixOf t || t.contains '|'

/-- Index of the first marker line among all lines but the last
(the loop `for (let i = 0; i < lines.length - 1; i++)`). -/
def findMarkerIdx : List Text → Option Nat
  | [] => none
  | [_] => none
  | l :: l2 :: rest =>
    if isMarkerLine l then some 0
    else (findMarkerIdx (l2 :: rest)).map (· + 1)

/-- Third branch of variant A's `extractCompleteBlocks`: split the buffer
at the first marker line. -/
def extractLines (buffer : Text) : List Text × Text :=
  match findMarkerIdx (splitNl buffer) with
  | some i => ([joinLines ((splitNl buffer).take (i + 1))],
               joinLines ((splitNl buffer).drop (i + 1)))
  | none => ([], buffer)

/-- `StreamProcessor.extractCompleteBlocks` (variant A,
`worker-parser.ts` lines 111-146).  Returns the extracted complete
blocks and the new buffer. -/
def extractA (buffer : Text) : List Text × Text :=
  match breakNN buffer with
  | some (pre, post) => (if trim pre = [] then [] else [pre], post)
  | none =>
    if 2 < (sentSplit buffer).length then
      -- JS: lastSentence = sentences.pop(), lastPunctuation = sentences.pop(),
      -- buffer = lastSentence, completeContent = sentences.join('');
      -- here lastSentence = getLastD, lastPunctuation = dropLast.getLastD,
      -- remaining sentences = dropLast.dropLast.
      if (sentSplit buffer).dropLast.getLastD [] = [] then
        -- `if (lastPunctuation)` false: fall through to the marker-line scan
        -- with the already-mutated buffer (unreachable, kept for fidelity).
        extractLines ((sentSplit buffer).getLastD [])
      else
        ([concatAll (sentSplit buffer).dropLast.dropLast ++ (sentSplit buffer).dropLast.getLastD []],
         (sentSplit buffer).getLastD [])
    else extractLines buffer

/-- State of `MarkdownParser.splitIntoBlocks`' line loop. -/
structure SplitSt where
  blocks : List Text
  current : List Text
  inCode : Bool
  inTable : Bool

/-- The regex `/^[-*_]{3,}$/` on a trimmed line. -/
def isHrLine (t : Text) : Bool :=
  decide (3 ≤ t.length) && t.all (fun c => c == '-' || c == '*' || c == '_')

/-- Table-row test of `splitIntoBlocks`:
`trimmed.includes('|') && (trimmed.startsWith('|') || trimmed.endsWith('|'))`. -/
def isTableLine (t : Text) : Bool :=
  t.contains '|' && ((toText "|").isPrefixOf t || (toText "|").isSuffixOf t)

/-- Blank-line / heading / hr / plain-line handling of `splitIntoBlocks`
(reached after the code-fence and table branches). -/
def splitStepTail (st : SplitSt) (line t : Text) : SplitSt :=
  if t = [] then
    { st with blocks := st.blocks ++ (if st.current = [] then [] else [joinLines st.current]),
              current := [] }
  else if (toText "#").isPrefixOf t || isHrLine t then
    { st with blocks := st.blocks ++ (if st.current = [] then [] else [joinLines st.current]) ++ [line],
              current := [] }
  else { st with current := st.current ++ [line] }

/-- One iteration of `splitIntoBlocks`' loop over lines
(`parser.ts` lines 54-118). -/
def splitStep (st : SplitSt) (line : Text) : SplitSt :=
  if bt3.isPrefixOf (trim line) then
    if st.inCode then
      { blocks := st.blocks ++ [joinLines (st.current ++ [line])], current := [],
        inCode := false, inTable := st.inTable }
    else
      { blocks := st.blocks ++ (if st.current = [] then [] else [joinLines st.current]),
        current := [line], inCode := true, inTable := st.inTable }
  else if st.inCode then
    { st with current := st.current ++ [line] }
  else if isTableLine (trim line) then
    if ¬st.inTable ∧ st.current ≠ [] then
      { blocks := st.blocks ++ [joinLines st.current], current := [line],
        inCode := false, inTable := true }
    else
      { st with current := st.current ++ [line], inTable := true }
  else
    splitStepTail
      (if st.inTable then
        { blocks := st.blocks ++ [joinLines st.current], current := [],
          inCode := st.inCode, inTable := false }
       else st) line (trim line)

/-- Text reconstructed from a split state: flushed blocks (separators
already dropped) followed by the current block.  Helper for the
conservation invariant. -/
def splitContent (st : SplitSt) : Text := concatAll st.blocks ++ joinLines st.current

/-- Text contributed by all lines after the first: a newline plus the
line, for each line. -/
def nlTail (ls : List Text) : Text := concatAll (ls.map (fun l => '\n' :: l))

/-- Final assembly of `splitIntoBlocks`: flush the remaining current
block and filter out blank blocks. -/
def splitFinal (st : SplitSt) : List Text :=
  (st.blocks ++ (if st.current = [] then [] else [joinLines st.current])).filter
    (fun b => trim b != [])

/-- `MarkdownParser.splitIntoBlocks` (`parser.ts` lines 47-126). -/
def splitIntoBlocks (md : Text) : List Text :=
  splitFinal ((splitNl md).foldl splitStep ⟨[], [], false, false⟩)

/-- Raw-text state of a variant-A `StreamProcessor`: the pending buffer
and the raw texts of all blocks handed downstream so far (the
`content` field of each materialized block, in materialization order). -/
structure StateA where
  buffer : Text
  blocks : List Text
deriving DecidableEq

/-- `StreamProcessor.append` (variant A): grow the buffer, extract
complete blocks, hand them downstream. -/
def appendA (st : StateA) (chunk : Text) : StateA :=
  let res := extractA (st.buffer ++ chunk)
  { buffer := res.2, blocks := st.blocks ++ res.1 }

/-- `StreamProcessor.finish` (both variants have identical code):
segment any non-blank remainder with `splitIntoBlocks` and clear the
buffer. -/
def finishS (st : StateA) : StateA :=
  if trim st.buffer = [] then st
  else { buffer := [], blocks := st.blocks ++ splitIntoBlocks st.buffer }

/-- A whole variant-A session: a sequence of `append` calls. -/
def runAppendsA (chunks : List Text) : StateA := chunks.foldl appendA ⟨[], []⟩

/-- A whole variant-A session: `append` calls followed by `finish`. -/
def runA (chunks : List Text) : StateA := finishS (runAppendsA chunks)

/-- Right-trim helper: strip trailing whitespace (so that
`trim l = trimR (l.dropWhile isWsChar)`). -/
def trimR (l : Text) : Text := (l.reverse.dropWhile isWsChar).reverse

/-- Non-overlapping occurrence count of three backticks, the JS
`trimmed.match(/\x60\x60\x60/g)` count: scan left to right counting
backtick runs in groups of three (`k` is the length of the current
backtick run, modulo 3). -/
def cfAux : Nat → Text → Nat
  | _, [] => 0
  | k, c :: rest =>
    if c = btChar then
      if k = 2 then cfAux 0 rest + 1 else cfAux (k + 1) rest
    else cfAux 0 rest

/-- Number of (non-overlapping, leftmost) matches of `/\x60\x60\x60/g`. -/
def countFence (l : Text) : Nat := cfAux 0 l

/-- JS `hay.lastIndexOf(needle)`: the largest index at which `needle`
occurs as a contiguous substring of `hay`, `none` when absent. -/
def lastIndexOfSub (hay needle : Text) : Option Nat :=
  ((List.range (hay.length + 1)).filter (fun i => needle.isPrefixOf (hay.drop i))).getLast?

/-- JS `s.slice(i)` for a possibly negative integer index. -/
def jsSliceFrom (s : Text) (i : Int) : Text :=
  if i < 0 then s.drop (s.length - min s.length (-i).toNat)
  else s.drop (min i.toNat s.length)

/-- The trimmed text after the last occurrence of `block` in
`fullBuffer` (`fullBuffer.slice(lastIndexOf(block) + block.length).trim()`,
with JS `lastIndexOf` returning -1 when absent). -/
def tableRemaining (block fullBuffer : Text) : Text :=
  trim (jsSliceFrom fullBuffer
    ((match lastIndexOfSub fullBuffer block with
      | some i => (i : Int)
      | none => -1) + block.length))

/-- `StreamProcessor.isBlockComplete` (variant B,
`worker-parser.ts` lines 249-268). -/
def isBlockComplete (block fullBuffer : Text) : Bool :=
  if bt3.isPrefixOf (trim block) then decide (2 ≤ countFence (trim block))
  else if (trim block).contains '|' then
    tableRemaining block fullBuffer == [] ||
    (toText "\n\n").isPrefixOf (tableRemaining block fullBuffer)
  else true

/-- `StreamProcessor.extractCompleteBlocks` (variant B, lines 226-244).
`Except.error ()` models the TypeError thrown when the buffer splits into
zero blocks: `blocks[blocks.length - 1]` is `undefined` and
`isBlockComplete` calls `.trim()` on it. -/
def extractB (buffer : Text) : Except Unit (List Text × Text) :=
  match (splitIntoBlocks buffer).getLast? with
  | none => .error ()
  | some lastBlock =>
    if isBlockComplete lastBlock buffer then .ok (splitIntoBlocks buffer, [])
    else
      .ok ((splitIntoBlocks buffer).dropLast,
        match lastIndexOfSub buffer lastBlock with
        | some i => buffer.drop i
        | none => jsSliceFrom buffer (-1))

/-- `StreamProcessor.append` (variant B, lines 209-220); an `error`
result models the rejection of the returned promise. -/
def appendB (st : StateA) (chunk : Text) : Except Unit StateA :=
  match extractB (st.buffer ++ chunk) with
  | .error e => .error e
  | .ok (bs, buf2) => .ok { buffer := buf2, blocks := st.blocks ++ bs }

/-- A whole variant-B session: `append` calls followed by `finish`,
aborted at the first rejected `append`. -/
def runB (chunks : List Text) : Except Unit StateA := do
  let st ← chunks.foldlM appendB ⟨[], []⟩
  pure (finishS st)

/-- The line list of a well-formed fenced code block: an opening fence
carrying the language, the body lines, and a closing fence. -/
def fenceLines (lang : Text) (body : List Text) : List Text :=
  (bt3 ++ lang) :: (body ++ [bt3])

/-- A well-formed fenced code block as a single text. -/
def fenceText (lang : Text) (body : List Text) : Text := joinLines (fenceLines lang body)

/-- One entry's conversion by the external converter (`marked.parse`
plus sanitizer): markup on success, or the thrown error's message.  The
converter is an external collaborator, so the worker model is
parameterized by it. -/
abbrev Conv := Text → Except String Text

/-- The worker's sequential conversion loop (`for (const block of
blocks)` inside a single `try`): the first thrown error aborts the
whole loop and the partial results are discarded. -/
def convertAll (conv : Conv) : List Text → Except String (List Text)
  | [] => .ok []
  | b :: rest =>
    match conv b with
    | .error e => .error e
    | .ok h =>
      match convertAll conv rest with
      | .error e => .error e
      | .ok hs => .ok (h :: hs)

/-- A worker response message (`parse_result` or `error`). -/
inductive WorkerResp
  | parseResult (results : List Text)
  | errorResp (msg : String)
deriving DecidableEq

/-- The worker's message handler for a parse batch
(`markdown.worker.ts` lines 45-76): the conversion loop runs inside one
`try`/`catch`, so on success all results are posted, and on any entry's
failure a single error message is posted for the whole batch. -/
def workerHandle (conv : Conv) (blocks : List Text) : WorkerResp :=
  match convertAll conv blocks with
  | .ok rs => .parseResult rs
  | .error e => .errorResp e

/-- A converter failing on the text `bad` (a stand-in for a
`marked.parse` call that throws on one entry) and echoing otherwise. -/
def convBad : Conv := fun t => if t = toText "bad" then .error "boom" else .ok t

/-- A converter that always succeeds, echoing its input. -/
def convOk : Conv := fun t => .ok t

/-- State of the interleaving model for variant-B `append` / `clear` /
in-flight conversion: the processor's buffer and processed-block list,
the renderer's queue, and the raw spans of the conversion currently
awaited (the `await this.parser.parseBlocks(newBlocks)` whose
continuation pushes into `processedBlocks` and the renderer). -/
structure ProcState where
  buffer : Text
  processed : List Text
  rendPending : List Text
  inFlight : Option (List Text)
deriving DecidableEq

/-- First half of `StreamProcessor.append` (variant B): grow the buffer,
extract complete blocks, and start a conversion when at least one block
was extracted (`if (newBlocks.length > 0) { await ... }`). -/
def appendStart (st : ProcState) (chunk : Text) : Except Unit ProcState :=
  match extractB (st.buffer ++ chunk) with
  | .error e => .error e
  | .ok (bs, buf2) =>
    .ok { st with buffer := buf2, inFlight := if bs = [] then none else some bs }

/-- Second half of `StreamProcessor.append`: the awaited conversion
resolves and the continuation runs, pushing the converted blocks into
`processedBlocks` and handing them to the renderer.  The code performs
no generation or identity check here. -/
def conversionResolve (st : ProcState) : ProcState :=
  match st.inFlight with
  | none => st
  | some bs =>
    { st with processed := st.processed ++ bs, rendPending := st.rendPending ++ bs,
              inFlight := none }

/-- `StreamProcessor.clear` plus `IncrementalRenderer.clear` at the
raw-span level: empties the buffer, the processed list and the render
queue.  The in-flight conversion is not cancelled and no generation
counter is incremented. -/
def clearProc (st : ProcState) : ProcState :=
  { st with buffer := [], processed := [], rendPending := [] }

/-- A block handed to the renderer: its id (provisional ids live in the
reserved `__temp__` namespace) and its markup. -/
structure RBlock where
  id : Text
  html : Text
deriving DecidableEq

/-- A DOM element created by `renderBlock`: a serial number standing for
object identity, and the block id stored on it. -/
structure Elem where
  serial : Nat
  eid : Text
deriving DecidableEq

/-- `id.startsWith('__temp__')`. -/
def isTemp (i : Text) : Bool := (toText "__temp__").isPrefixOf i

/-- `renderedBlocks.get` on the id-to-element-serial map. -/
def mapGet (m : List (Text × Nat)) (k : Text) : Option Nat :=
  match m.find? (fun kv => kv.1 == k) with
  | some kv => some kv.2
  | none => none

/-- `renderedBlocks.set` (overwrite semantics). -/
def mapSet (m : List (Text × Nat)) (k : Text) (v : Nat) : List (Text × Nat) :=
  (k, v) :: m.filter (fun kv => kv.1 != k)

/-- `renderedBlocks.delete`. -/
def mapDel (m : List (Text × Nat)) (k : Text) : List (Text × Nat) :=
  m.filter (fun kv => kv.1 != k)

/-- `element.remove()`: drop the element with the given serial. -/
def removeSerial (es : List Elem) (s : Nat) : List Elem :=
  es.filter (fun e => e.serial != s)

/-- State of the `IncrementalRenderer`: the container's child list (the
materialized set, in DOM order), the `renderedBlocks` map, the pending
FIFO, the scheduled-frame flag (`rafId !== null`), the `isRendering`
flag, `lastTempBlockId`, a fresh-serial counter for new elements, and
the delay of the most recently scheduled `setTimeout` follow-up. -/
structure RState where
  container : List Elem
  rmap : List (Text × Nat)
  pending : List RBlock
  rafScheduled : Bool
  isRendering : Bool
  lastTempId : Option Text
  nextSerial : Nat
  timeoutDelay : Option Nat
deriving DecidableEq

/-- A fresh renderer. -/
def initR : RState := ⟨[], [], [], false, false, none, 0, none⟩

/-- `IncrementalRenderer.scheduleRender` (lines 52-59): a no-op when a
frame is already scheduled. -/
def scheduleRenderR (st : RState) : RState :=
  if st.rafScheduled then st else { st with rafScheduled := true }

/-- The stale-provisional cleanup at the top of
`IncrementalRenderer.appendBlocks` (lines 36-43). -/
def tempCleanup (st : RState) (blocks : List RBlock) : RState :=
  match st.lastTempId, blocks with
  | some t, b :: _ =>
    match mapGet st.rmap t with
    | some s =>
      if isTemp b.id then st
      else { st with container := removeSerial st.container s,
                     rmap := mapDel st.rmap t, lastTempId := none }
    | none => st
  | _, _ => st

/-- `IncrementalRenderer.appendBlocks` (lines 34-47). -/
def appendBlocksR (st : RState) (blocks : List RBlock) : RState :=
  scheduleRenderR
    { tempCleanup st blocks with pending := (tempCleanup st blocks).pending ++ blocks }

/-- Loop state inside `renderPendingBlocks`: the live container, the
map, the document fragment being built, the provisional id, and the
serial counter. -/
structure PassSt where
  container : List Elem
  rmap : List (Text × Nat)
  fragment : List Elem
  lastTempId : Option Text
  nextSerial : Nat

/-- Provisional handling of one chunk iteration
(`renderPendingBlocks`, lines 75-85): when the block is provisional,
remove the previous provisional element wholesale (wherever it lives)
and take over its slot. -/
def passTempStep (ps : PassSt) (b : RBlock) : PassSt :=
  if isTemp b.id then
    match ps.lastTempId with
    | some t =>
      match mapGet ps.rmap t with
      | some s =>
        { container := removeSerial ps.container s, rmap := mapDel ps.rmap t,
          fragment := removeSerial ps.fragment s, lastTempId := some b.id,
          nextSerial := ps.nextSerial }
      | none => { ps with lastTempId := some b.id }
    | none => { ps with lastTempId := some b.id }
  else ps

/-- One full chunk iteration of `renderPendingBlocks` (lines 74-90):
provisional handling, then create the element, append it to the
fragment and record it in the map. -/
def passStep (ps : PassSt) (b : RBlock) : PassSt :=
  { passTempStep ps b with
    fragment := (passTempStep ps b).fragment ++ [⟨(passTempStep ps b).nextSerial, b.id⟩],
    rmap := mapSet (passTempStep ps b).rmap b.id (passTempStep ps b).nextSerial,
    nextSerial := (passTempStep ps b).nextSerial + 1 }

/-- The chunk loop of `renderPendingBlocks` over the first `chunkSize`
pending blocks. -/
def passRun (cs : Nat) (st : RState) : PassSt :=
  (st.pending.take cs).foldl passStep
    ⟨st.container, st.rmap, [], st.lastTempId, st.nextSerial⟩

/-- The state after a non-trivial `renderPendingBlocks` pass: the
fragment is appended to the container in one batch, the consumed chunk
leaves the queue, and when blocks remain a follow-up is scheduled via
`setTimeout` with delay `renderTime > 16 ? min(debounceMs, 8) : 0`
(`rt` is the wall-clock duration of the pass, an external oracle). -/
def afterPass (cs dm rt : Nat) (st : RState) : RState :=
  { container := (passRun cs st).container ++ (passRun cs st).fragment,
    rmap := (passRun cs st).rmap,
    pending := st.pending.drop cs,
    rafScheduled := st.rafScheduled,
    isRendering := false,
    lastTempId := (passRun cs st).lastTempId,
    nextSerial := (passRun cs st).nextSerial,
    timeoutDelay := if st.pending.drop cs = [] then st.timeoutDelay
      else some (if 16 < rt then min dm 8 else 0) }

/-- `IncrementalRenderer.renderPendingBlocks` (lines 64-108): a no-op
while another pass is rendering or when nothing is pending. -/
def renderPassR (cs dm rt : Nat) (st : RState) : RState :=
  if st.isRendering then st
  else if st.pending = [] then st
  else afterPass cs dm rt st

/-- `IncrementalRenderer.clear` (lines 138-147): cancel the scheduled
frame, drop the queue, the map and the container contents.
`lastTempBlockId` is not reset, and a `setTimeout` follow-up from a
previous pass is not cancelled. -/
def clearR (st : RState) : RState :=
  { st with rafScheduled := false, pending := [], rmap := [], container := [] }

/-- Observable renderer events: an `appendBlocks` call, the scheduled
animation frame firing (with the pass duration as oracle), a pending
`setTimeout` follow-up firing, and a `clear` call. -/
inductive REv where
  | enq (blocks : List RBlock)
  | raf (rt : Nat)
  | timeoutFire
  | clearEv

/-- One renderer event. -/
def stepR (cs dm : Nat) (st : RState) : REv → RState
  | .enq blocks => appendBlocksR st blocks
  | .raf rt =>
    if st.rafScheduled then renderPassR cs dm rt { st with rafScheduled := false } else st
  | .timeoutFire =>
    match st.timeoutDelay with
    | some _ => scheduleRenderR { st with timeoutDelay := none }
    | none => st
  | .clearEv => clearR st

/-- A renderer history from a fresh renderer. -/
def runR (cs dm : Nat) (evs : List REv) : RState :=
  evs.foldl (stepR cs dm) initR

/-- Number of provisional elements materialized in the container. -/
def tempCount (es : List Elem) : Nat := (es.filter (fun e => isTemp e.eid)).length

/-- Inductive invariant: at most one provisional element is
materialized, and every provisional element is tracked by
`lastTempBlockId` and by the `renderedBlocks` map (so that replacement
finds and removes it). -/
def RInv (st : RState) : Prop :=
  tempCount st.container ≤ 1 ∧
  ∀ e ∈ st.container, isTemp e.eid = true →
    st.lastTempId = some e.eid ∧ mapGet st.rmap e.eid = some e.serial

/-- The pass-loop version of `RInv`, over container plus fragment. -/
def PInv (ps : PassSt) : Prop :=
  tempCount (ps.container ++ ps.fragment) ≤ 1 ∧
  ∀ e ∈ ps.container ++ ps.fragment, isTemp e.eid = true →
    ps.lastTempId = some e.eid ∧ mapGet ps.rmap e.eid = some e.serial

/-- Full system state for the clear-idempotence claim: the
`StreamProcessor` fields (variant B also keeps `lastProcessedIndex`)
plus the renderer state. -/
structure SysState where
  buffer : Text
  lastProcessedIndex : Nat
  processed : List Text
  rend : RState
deriving DecidableEq

/-- `StreamProcessor.clear` (identical in both variants): reset the
buffer, the index and the processed list, and clear the renderer. -/
def sysClear (s : SysState) : SysState :=
  { buffer := [], lastProcessedIndex := 0, processed := [], rend := clearR s.rend }

/-- Provenance of elements during a render pass relative to the
container `C` and serial bound `n0` at pass start: the live container
only ever shrinks from `C`, and fragment elements are freshly created
(serial at least `n0`).  Captures that existing elements are never
edited, only removed wholesale or newly created. -/
def Prov (C : List Elem) (n0 : Nat) (ps : PassSt) : Prop :=
  (∀ e ∈ ps.container, e ∈ C) ∧ (∀ e ∈ ps.fragment, n0 ≤ e.serial) ∧ n0 ≤ ps.nextSerial

/-- A concrete renderer state with two queued real blocks (used to
instantiate the drain-behavior theorem). -/
def rSt0 : RState :=
  ⟨[], [], [⟨toText "b1", toText "h1"⟩, ⟨toText "b2", toText "h2"⟩],
    false, false, none, 0, none⟩

theorem wsDel_refl (l : Text) : WsDel l l := by
  induction l with
  | nil => exact WsDel.nil
  | cons c l ih => exact WsDel.keep c ih

theorem wsDel_append {a b c d : Text} (h₁ : WsDel a b) (h₂ : WsDel c d) :
    WsDel (a ++ c) (b ++ d) := by
  induction h₁ with
  | nil => simpa using h₂
  | keep x _ ih => exact WsDel.keep x ih
  | del x hx _ ih => exact WsDel.del x hx ih

theorem wsDel_ws_cons {l m : Text} {c : Char} (hc : isWsChar c = true)
    (h : WsDel l m) : WsDel l (c :: m) := WsDel.del c hc h

theorem wsDel_ws_left {w : Text} (hw : ∀ c ∈ w, isWsChar c = true) {l m : Text}
    (h : WsDel l m) : WsDel l (w ++ m) := by
  induction w with
  | nil => simpa using h
  | cons c w ih =>
      exact WsDel.del c (hw c (List.mem_cons_self c w))
        (ih fun x hx => hw x (List.mem_cons_of_mem c hx))

theorem wsDel_nil_left {m : Text} (hm : ∀ c ∈ m, isWsChar c = true) :
    WsDel [] m := by
  simpa using wsDel_ws_left hm WsDel.nil

theorem wsDel_of_eq_nil {a : Text} (h : WsDel a []) : a = [] := by
  cases h; rfl

theorem wsDel_length_le {a b : Text} (h : WsDel a b) : a.length ≤ b.length := by
  induction h with
  | nil => simp
  | keep c _ ih => simpa using Nat.succ_le_succ ih
  | del c _ _ ih => simpa using Nat.le_succ_of_le ih

theorem wsDel_trans {a b c : Text} (h₁ : WsDel a b) (h₂ : WsDel b c) :
    WsDel a c := by
  induction h₂ generalizing a with
  | nil => exact h₁
  | keep x h ih =>
      cases h₁ with
      | keep _ h' => exact WsDel.keep x (ih h')
      | del _ hx h' => exact WsDel.del x hx (ih h')
  | del x hx h ih => exact WsDel.del x hx (ih h₁)

theorem trim_eq_nil_allWs {l : Text} (h : trim l = []) :
    ∀ c ∈ l, isWsChar c = true := by
  intro c hc
  unfold trim at h
  rw [List.reverse_eq_nil_iff, List.dropWhile_eq_nil_iff] at h
  by_cases hws : isWsChar c = true
  · exact hws
  · exfalso
    have hmem : c ∈ l.dropWhile isWsChar := by
      have hsplit := List.takeWhile_append_dropWhile isWsChar l
      by_contra hnot
      have : c ∈ l.takeWhile isWsChar := by
        have : c ∈ l.takeWhile isWsChar ++ l.dropWhile isWsChar := by
          rw [hsplit]; exact hc
        rcases List.mem_append.mp this with h' | h'
        · exact h'
        · exact absurd h' hnot
      exact hws (List.mem_takeWhile_imp this)
    have : c ∈ (l.dropWhile isWsChar).reverse := List.mem_reverse.mpr hmem
    exact hws (h c this)

theorem splitNl_ne_nil (l : Text) : splitNl l ≠ [] := by
  induction l with
  | nil => simp [splitNl]
  | cons c rest ih =>
      simp only [splitNl]
      split
      · simp
      · cases h : splitNl rest with
        | nil => simp
        | cons x xs => simp

theorem joinLines_splitNl (l : Text) : joinLines (splitNl l) = l := by
  induction l with
  | nil => simp [splitNl, joinLines]
  | cons c rest ih =>
      simp only [splitNl]
      split
      · rename_i hc
        subst hc
        cases h : splitNl rest with
        | nil => exact absurd h (splitNl_ne_nil rest)
        | cons x xs =>
            rw [h] at ih
            simp [joinLines, ih]
      · cases h : splitNl rest with
        | nil => exact absurd h (splitNl_ne_nil rest)
        | cons x xs =>
            rw [h] at ih
            cases xs with
            | nil => simp_all [joinLines]
            | cons y ys => simp_all [joinLines]

theorem joinLines_cons_cons (l l2 : Text) (ls : List Text) :
    joinLines (l :: l2 :: ls) = l ++ '\n' :: joinLines (l2 :: ls) := rfl

theorem joinLines_snoc (cur : List Text) (line : Text) :
    joinLines (cur ++ [line]) =
      if cur = [] then line else joinLines cur ++ '\n' :: line := by
  induction cur with
  | nil => simp [joinLines]
  | cons x xs ih =>
      cases xs with
      | nil => simp [joinLines]
      | cons y ys =>
          simp only [List.cons_append, joinLines_cons_cons]
          rw [show (y :: (ys ++ [line])) = (y :: ys) ++ [line] by simp, ih]
          simp [List.append_assoc]

theorem concatAll_nil : concatAll [] = [] := rfl

theorem concatAll_cons (x : Text) (xs : List Text) :
    concatAll (x :: xs) = x ++ concatAll xs := rfl

theorem concatAll_append (xs ys : List Text) :
    concatAll (xs ++ ys) = concatAll xs ++ concatAll ys := by
  induction xs with
  | nil => simp [concatAll]
  | cons x xs ih => simp only [List.cons_append, concatAll_cons, ih, List.append_assoc]

theorem breakNN_eq : ∀ {l pre post : Text}, breakNN l = some (pre, post) →
    l = pre ++ '\n' :: '\n' :: post := by
  intro l
  induction l with
  | nil => intro pre post h; simp [breakNN] at h
  | cons c rest ih =>
      intro pre post h
      cases rest with
      | nil => simp [breakNN] at h
      | cons c2 r =>
          simp only [breakNN] at h
          split at h
          · rename_i hc
            obtain ⟨hc1, hc2⟩ := hc
            simp only [Option.some.injEq, Prod.mk.injEq] at h
            obtain ⟨h1, h2⟩ := h
            subst h1; subst h2; subst hc1; subst hc2
            rfl
          · cases hf : breakNN (c2 :: r) with
            | none => rw [hf] at h; simp at h
            | some pp =>
                obtain ⟨pre', post'⟩ := pp
                rw [hf] at h
                simp only [Option.some.injEq, Prod.mk.injEq] at h
                obtain ⟨h1, h2⟩ := h
                subst h1; subst h2
                have := ih hf
                rw [List.cons_append, ← this]

theorem findSent_decomp : ∀ {l pre : Text} {p : Char} {rem : Text},
    findSent l = some (pre, p, rem) →
    ∃ w, (∀ c ∈ w, isWsChar c = true) ∧ l = pre ++ p :: (w ++ rem) := by
  intro l
  induction l with
  | nil => intro pre p rem h; simp [findSent] at h
  | cons c rest ih =>
      intro pre p rem h
      cases rest with
      | nil => simp [findSent] at h
      | cons c2 r =>
          simp only [findSent] at h
          split at h
          · simp only [Option.some.injEq, Prod.mk.injEq] at h
            obtain ⟨h1, h2, h3⟩ := h
            subst h1; subst h2; subst h3
            refine ⟨(c2 :: r).takeWhile isWsChar, ?_, ?_⟩
            · intro x hx; exact List.mem_takeWhile_imp hx
            · simp only [List.nil_append]
              rw [List.takeWhile_append_dropWhile]
          · cases hf : findSent (c2 :: r) with
            | none => rw [hf] at h; simp at h
            | some trip =>
                obtain ⟨pre', p', rem'⟩ := trip
                rw [hf] at h
                simp only [Option.some.injEq, Prod.mk.injEq] at h
                obtain ⟨h1, h2, h3⟩ := h
                subst h1; subst h2; subst h3
                obtain ⟨w, hw, hl⟩ := ih hf
                exact ⟨w, hw, by rw [List.cons_append, ← hl]⟩

theorem wsDel_sentSplitAux : ∀ (fuel : Nat) (l : Text),
    WsDel (concatAll (sentSplitAux fuel l)) l := by
  intro fuel
  induction fuel with
  | zero => intro l; simpa [sentSplitAux, concatAll] using wsDel_refl l
  | succ fuel ih =>
      intro l
      cases hf : findSent l with
      | none => simpa [sentSplitAux, hf, concatAll] using wsDel_refl l
      | some trip =>
          obtain ⟨pre, p, rem⟩ := trip
          simp only [sentSplitAux, hf]
          obtain ⟨w, hw, hl⟩ := findSent_decomp hf
          rw [hl]
          have h1 : concatAll (pre :: [p] :: sentSplitAux fuel rem) =
              pre ++ p :: concatAll (sentSplitAux fuel rem) := by
            simp [concatAll_cons]
          rw [h1]
          exact wsDel_append (wsDel_refl pre) (WsDel.keep p (wsDel_ws_left hw (ih rem)))

theorem wsDel_sentSplit (l : Text) : WsDel (concatAll (sentSplit l)) l :=
  wsDel_sentSplitAux l.length l

theorem sShape_sentSplitAux : ∀ (fuel : Nat) (l : Text), SShape (sentSplitAux fuel l) := by
  intro fuel
  induction fuel with
  | zero => intro l; exact SShape.single l
  | succ fuel ih =>
      intro l
      cases hf : findSent l with
      | none => simp only [sentSplitAux, hf]; exact SShape.single l
      | some trip =>
          obtain ⟨pre, p, rem⟩ := trip
          simp only [sentSplitAux, hf]
          exact SShape.more pre p (ih rem)

theorem sShape_sentSplit (l : Text) : SShape (sentSplit l) :=
  sShape_sentSplitAux l.length l

theorem sShape_ne_nil : ∀ {s : List Text}, SShape s → s ≠ [] := by
  intro s hs; cases hs <;> simp

theorem getLastD_irrel {α : Type} (a : α) (l : List α) (d d' : α) :
    (a :: l).getLastD d = (a :: l).getLastD d' := by
  simp only [List.getLastD_cons]

theorem sShape_penult : ∀ {s : List Text}, SShape s → 2 < s.length →
    ∃ p : Char, s.dropLast.getLastD [] = [p] := by
  intro s hs
  induction hs with
  | single t => intro h; simp at h
  | more t p hrest ih =>
      rename_i rest
      intro hbig
      cases hrest with
      | single x => exact ⟨p, rfl⟩
      | more t' p' hrest' =>
          rename_i rest'
          have hlen : 2 < (t' :: [p'] :: rest').length := by
            have := sShape_ne_nil hrest'
            cases rest' with
            | nil => simp at this
            | cons a b => simp
          obtain ⟨q, hq⟩ := ih hlen
          refine ⟨q, ?_⟩
          have hdd : (t :: [p] :: t' :: [p'] :: rest').dropLast =
              t :: [p] :: (t' :: [p'] :: rest').dropLast := by
            simp [List.dropLast]
          rw [hdd]
          have hne : (t' :: [p'] :: rest').dropLast ≠ [] := by
            cases rest' with
            | nil => simp [List.dropLast]
            | cons a b => simp [List.dropLast]
          cases hdl : (t' :: [p'] :: rest').dropLast with
          | nil => exact absurd hdl hne
          | cons y ys =>
              rw [hdl] at hq
              rw [show ((t :: [p] :: y :: ys : List Text).getLastD [] = (y :: ys).getLastD []) from ?_]
              · exact hq
              · simp only [List.getLastD_cons]

theorem dropLast_append_getLastD {α : Type} (d : α) {l : List α} (h : l ≠ []) :
    l.dropLast ++ [l.getLastD d] = l := by
  have h1 : l.getLastD d = l.getLast h := by
    rw [List.getLastD_eq_getLast?, List.getLast?_eq_getLast l h]
    rfl
  rw [h1]
  exact List.dropLast_append_getLast h

theorem findMarkerIdx_lt : ∀ {ls : List Text} {i : Nat},
    findMarkerIdx ls = some i → i + 1 < ls.length := by
  intro ls
  induction ls with
  | nil => intro i h; simp [findMarkerIdx] at h
  | cons l rest ih =>
      intro i h
      cases rest with
      | nil => simp [findMarkerIdx] at h
      | cons l2 r =>
          simp only [findMarkerIdx] at h
          split at h
          · simp only [Option.some.injEq] at h
            subst h
            simp
          · cases hf : findMarkerIdx (l2 :: r) with
            | none => rw [hf] at h; simp at h
            | some j =>
                rw [hf] at h
                simp only [Option.map_some', Option.some.injEq] at h
                subst h
                have := ih hf
                simp only [List.length_cons] at this ⊢
                omega

theorem joinLines_take_drop : ∀ (ls : List Text) (n : Nat), 0 < n → n < ls.length →
    joinLines (ls.take n) ++ '\n' :: joinLines (ls.drop n) = joinLines ls := by
  intro ls
  induction ls with
  | nil => intro n h1 h2; simp at h2
  | cons l rest ih =>
      intro n h1 h2
      cases n with
      | zero => exact absurd h1 (by simp)
      | succ k =>
          cases k with
          | zero =>
              cases rest with
              | nil => simp at h2
              | cons x xs => simp [joinLines]
          | succ k' =>
              cases rest with
              | nil => simp at h2
              | cons x xs =>
                  have h2' : k' + 1 < (x :: xs).length := by
                    simp only [List.length_cons] at h2 ⊢; omega
                  have hih := ih (k' + 1) (Nat.succ_pos k') h2'
                  simp only [List.take_succ_cons, List.drop_succ_cons] at hih
                  show joinLines (l :: x :: xs.take k') ++ '\n' :: joinLines (xs.drop k') =
                    joinLines (l :: x :: xs)
                  rw [joinLines_cons_cons l x (xs.take k'), joinLines_cons_cons l x xs]
                  simp only [List.cons_append, List.append_assoc]
                  rw [hih]

theorem extractLines_some {buf : Text} {i : Nat}
    (h : findMarkerIdx (splitNl buf) = some i) :
    extractLines buf = ([joinLines ((splitNl buf).take (i + 1))],
      joinLines ((splitNl buf).drop (i + 1))) := by
  unfold extractLines
  rw [h]

theorem extractLines_none {buf : Text}
    (h : findMarkerIdx (splitNl buf) = none) :
    extractLines buf = ([], buf) := by
  unfold extractLines
  rw [h]

theorem wsDel_extractLines (buf : Text) :
    WsDel (concatAll (extractLines buf).1 ++ (extractLines buf).2) buf := by
  cases hf : findMarkerIdx (splitNl buf) with
  | none => rw [extractLines_none hf]; simpa [concatAll] using wsDel_refl buf
  | some i =>
      rw [extractLines_some hf]
      have hlt := findMarkerIdx_lt hf
      have hjoin := joinLines_take_drop (splitNl buf) (i + 1) (Nat.succ_pos i) hlt
      have hbuf : joinLines ((splitNl buf).take (i + 1)) ++
          '\n' :: joinLines ((splitNl buf).drop (i + 1)) = buf := by
        rw [hjoin, joinLines_splitNl]
      have wd : WsDel
          (joinLines ((splitNl buf).take (i + 1)) ++ joinLines ((splitNl buf).drop (i + 1)))
          (joinLines ((splitNl buf).take (i + 1)) ++ '\n' :: joinLines ((splitNl buf).drop (i + 1))) :=
        wsDel_append (wsDel_refl _) (WsDel.del '\n' (by decide) (wsDel_refl _))
      rw [hbuf] at wd
      simpa [concatAll] using wd

theorem extractA_some {buf pre post : Text} (h : breakNN buf = some (pre, post)) :
    extractA buf = (if trim pre = [] then [] else [pre], post) := by
  unfold extractA
  rw [h]

theorem extractA_none_small {buf : Text} (h : breakNN buf = none)
    (hlen : ¬ 2 < (sentSplit buf).length) :
    extractA buf = extractLines buf := by
  unfold extractA
  rw [h]
  simp only [if_neg hlen]

theorem extractA_none_big {buf : Text} (h : breakNN buf = none)
    (hlen : 2 < (sentSplit buf).length)
    (hp : (sentSplit buf).dropLast.getLastD [] ≠ []) :
    extractA buf =
      ([concatAll (sentSplit buf).dropLast.dropLast ++ (sentSplit buf).dropLast.getLastD []],
       (sentSplit buf).getLastD []) := by
  unfold extractA
  rw [h]
  simp only [if_pos hlen, if_neg hp]

theorem extractA_none_big_nopunct {buf : Text} (h : breakNN buf = none)
    (hlen : 2 < (sentSplit buf).length)
    (hp : (sentSplit buf).dropLast.getLastD [] = []) :
    extractA buf = extractLines ((sentSplit buf).getLastD []) := by
  unfold extractA
  rw [h]
  simp only [if_pos hlen, if_pos hp]

theorem wsDel_extractA (buf : Text) :
    WsDel (concatAll (extractA buf).1 ++ (extractA buf).2) buf := by
  cases hb : breakNN buf with
  | some pp =>
      obtain ⟨pre, post⟩ := pp
      have hdec := breakNN_eq hb
      rw [extractA_some hb]
      by_cases ht : trim pre = []
      · rw [if_pos ht, hdec]
        simp only [concatAll_nil, List.nil_append]
        exact wsDel_ws_left (trim_eq_nil_allWs ht)
          (WsDel.del '\n' (by decide) (WsDel.del '\n' (by decide) (wsDel_refl post)))
      · rw [if_neg ht, hdec]
        simp only [concatAll_cons, concatAll_nil, List.append_nil]
        exact wsDel_append (wsDel_refl pre)
          (WsDel.del '\n' (by decide) (WsDel.del '\n' (by decide) (wsDel_refl post)))
  | none =>
      by_cases hlen : 2 < (sentSplit buf).length
      · obtain ⟨p, hp⟩ := sShape_penult (sShape_sentSplit buf) hlen
        have hpne : (sentSplit buf).dropLast.getLastD [] ≠ [] := by rw [hp]; simp
        rw [extractA_none_big hb hlen hpne]
        have hsne : sentSplit buf ≠ [] := sShape_ne_nil (sShape_sentSplit buf)
        have hdne : (sentSplit buf).dropLast ≠ [] := by
          intro hc
          have := congrArg List.length hc
          simp [List.length_dropLast] at this
          omega
        have hs1 : (sentSplit buf).dropLast.dropLast ++ [(sentSplit buf).dropLast.getLastD []] =
            (sentSplit buf).dropLast := dropLast_append_getLastD [] hdne
        have hs2 : (sentSplit buf).dropLast ++ [(sentSplit buf).getLastD []] = sentSplit buf :=
          dropLast_append_getLastD [] hsne
        have key : concatAll (sentSplit buf).dropLast.dropLast ++
            (sentSplit buf).dropLast.getLastD [] ++ (sentSplit buf).getLastD [] =
            concatAll (sentSplit buf) := by
          rw [← hs2, ← hs1]
          simp [concatAll_append, concatAll_cons, concatAll_nil, List.append_assoc]
        simp only [concatAll_cons, concatAll_nil, List.append_nil]
        have := wsDel_sentSplit buf
        rw [← key] at this
        simpa [List.append_assoc] using this
      · rw [extractA_none_small hb hlen]
        exact wsDel_extractLines buf

theorem extractLines_len_le (buf : Text) : (extractLines buf).1.length ≤ 1 := by
  cases hf : findMarkerIdx (splitNl buf) with
  | none => rw [extractLines_none hf]; simp
  | some i => rw [extractLines_some hf]; simp

theorem extractA_len_le (buf : Text) : (extractA buf).1.length ≤ 1 := by
  cases hb : breakNN buf with
  | some pp =>
      obtain ⟨pre, post⟩ := pp
      rw [extractA_some hb]
      by_cases ht : trim pre = []
      · rw [if_pos ht]; simp
      · rw [if_neg ht]; simp
  | none =>
      by_cases hlen : 2 < (sentSplit buf).length
      · by_cases hp : (sentSplit buf).dropLast.getLastD [] = []
        · rw [extractA_none_big_nopunct hb hlen hp]
          exact extractLines_len_le _
        · rw [extractA_none_big hb hlen hp]; simp
      · rw [extractA_none_small hb hlen]
        exact extractLines_len_le _

theorem concatAll_snoc (bs : List Text) (b : Text) :
    concatAll (bs ++ [b]) = concatAll bs ++ b := by
  rw [concatAll_append]
  simp [concatAll]

theorem wsDel_line_nl (line : Text) : WsDel line ('\n' :: line) :=
  WsDel.del '\n' (by decide) (wsDel_refl line)

theorem wsDel_add_current {st : SplitSt} {src : Text}
    (h : WsDel (splitContent st) src) (line : Text) :
    WsDel (concatAll st.blocks ++ joinLines (st.current ++ [line]))
      (src ++ '\n' :: line) := by
  rw [joinLines_snoc]
  by_cases hc : st.current = []
  · rw [if_pos hc]
    have h0 : splitContent st = concatAll st.blocks := by
      unfold splitContent
      rw [hc]
      simp [joinLines]
    rw [h0] at h
    exact wsDel_append h (wsDel_line_nl line)
  · rw [if_neg hc, ← List.append_assoc]
    exact wsDel_append h (wsDel_refl _)

theorem wsDel_splitStepTail {st : SplitSt} {src : Text}
    (h : WsDel (splitContent st) src) (line : Text) :
    WsDel (splitContent (splitStepTail st line (trim line))) (src ++ '\n' :: line) := by
  unfold splitStepTail
  by_cases h0 : trim line = []
  · rw [if_pos h0]
    have hX : WsDel ([] : Text) ('\n' :: line) :=
      WsDel.del '\n' (by decide) (wsDel_nil_left (trim_eq_nil_allWs h0))
    have hsrc := wsDel_append h hX
    simp only [List.append_nil] at hsrc
    by_cases hc : st.current = []
    · simpa [splitContent, hc, joinLines] using hsrc
    · simpa [splitContent, hc, joinLines, concatAll_snoc] using hsrc
  · rw [if_neg h0]
    by_cases h1 : ((toText "#").isPrefixOf (trim line) || isHrLine (trim line)) = true
    · rw [if_pos h1]
      have hsrc := wsDel_append h (wsDel_line_nl line)
      by_cases hc : st.current = []
      · simpa only [splitContent, hc, if_true, if_false, joinLines, concatAll_append,
          concatAll_cons, concatAll_nil, List.append_nil, List.nil_append,
          List.append_assoc] using hsrc
      · simpa only [splitContent, hc, if_true, if_false, joinLines, concatAll_append,
          concatAll_cons, concatAll_nil, List.append_nil, List.nil_append,
          List.append_assoc] using hsrc
    · rw [if_neg h1]
      exact wsDel_add_current h line

theorem wsDel_splitStep {st : SplitSt} {src : Text}
    (h : WsDel (splitContent st) src) (line : Text) :
    WsDel (splitContent (splitStep st line)) (src ++ '\n' :: line) := by
  unfold splitStep
  by_cases hbt : bt3.isPrefixOf (trim line) = true
  · rw [if_pos hbt]
    by_cases hic : st.inCode = true
    · rw [if_pos hic]
      have := wsDel_add_current h line
      simpa [splitContent, joinLines, concatAll_snoc] using this
    · rw [if_neg hic]
      by_cases hc : st.current = []
      · have h0 : splitContent st = concatAll st.blocks := by
          unfold splitContent
          rw [hc]
          simp [joinLines]
        rw [h0] at h
        have := wsDel_append h (wsDel_line_nl line)
        simpa [splitContent, hc, joinLines] using this
      · have := wsDel_append h (wsDel_line_nl line)
        simpa [splitContent, hc, joinLines, concatAll_snoc,
          List.append_assoc] using this
  · rw [if_neg hbt]
    by_cases hic : st.inCode = true
    · rw [if_pos hic]
      have := wsDel_add_current h line
      simpa [splitContent] using this
    · rw [if_neg hic]
      by_cases hta : isTableLine (trim line) = true
      · rw [if_pos hta]
        by_cases hcond : ¬st.inTable = true ∧ st.current ≠ []
        · rw [if_pos hcond]
          have := wsDel_append h (wsDel_line_nl line)
          simpa [splitContent, joinLines, concatAll_snoc,
            List.append_assoc] using this
        · rw [if_neg hcond]
          have := wsDel_add_current h line
          simpa [splitContent] using this
      · rw [if_neg hta]
        by_cases hit : st.inTable = true
        · rw [if_pos hit]
          have h' : WsDel
              (splitContent ⟨st.blocks ++ [joinLines st.current], [],
                st.inCode, false⟩) src := by
            simpa [splitContent, joinLines, concatAll_snoc] using h
          exact wsDel_splitStepTail h' line
        · rw [if_neg hit]
          exact wsDel_splitStepTail h line

theorem wsDel_splitStep_first (line : Text) :
    WsDel (splitContent (splitStep ⟨[], [], false, false⟩ line)) line := by
  unfold splitStep
  by_cases hbt : bt3.isPrefixOf (trim line) = true
  · rw [if_pos hbt]
    simpa [splitContent, concatAll, joinLines] using wsDel_refl line
  · rw [if_neg hbt]
    by_cases hta : isTableLine (trim line) = true
    · simp only [if_pos hta]
      simpa [splitContent, concatAll, joinLines] using wsDel_refl line
    · simp only [if_neg hta]
      unfold splitStepTail
      by_cases h0 : trim line = []
      · rw [if_pos h0]
        simpa [splitContent, concatAll, joinLines] using
          wsDel_nil_left (trim_eq_nil_allWs h0)
      · rw [if_neg h0]
        by_cases h1 : ((toText "#").isPrefixOf (trim line) || isHrLine (trim line)) = true
        · rw [if_pos h1]
          simpa [splitContent, concatAll, joinLines] using wsDel_refl line
        · rw [if_neg h1]
          simpa [splitContent, concatAll, joinLines] using wsDel_refl line

theorem wsDel_splitFold : ∀ (ls : List Text) (st : SplitSt) (src : Text),
    WsDel (splitContent st) src →
    WsDel (splitContent (ls.foldl splitStep st)) (src ++ nlTail ls) := by
  intro ls
  induction ls with
  | nil => intro st src h; simpa [nlTail, concatAll] using h
  | cons l ls ih =>
      intro st src h
      have hstep := wsDel_splitStep h l
      have := ih (splitStep st l) (src ++ '\n' :: l) hstep
      simpa [nlTail, concatAll_cons, List.append_assoc] using this

theorem joinLines_eq_head_nlTail : ∀ (l0 : Text) (rest : List Text),
    joinLines (l0 :: rest) = l0 ++ nlTail rest := by
  intro l0 rest
  induction rest generalizing l0 with
  | nil => simp [joinLines, nlTail, concatAll]
  | cons r rs ih =>
      rw [joinLines_cons_cons, ih r]
      simp [nlTail, concatAll_cons]

theorem wsDel_splitFoldAll (md : Text) :
    WsDel (splitContent ((splitNl md).foldl splitStep ⟨[], [], false, false⟩)) md := by
  cases hs : splitNl md with
  | nil => exact absurd hs (splitNl_ne_nil md)
  | cons l0 rest =>
      have hmd : md = l0 ++ nlTail rest := by
        rw [← joinLines_splitNl md, hs, joinLines_eq_head_nlTail]
      rw [List.foldl_cons, show md = l0 ++ nlTail rest from hmd]
      exact wsDel_splitFold rest _ l0 (wsDel_splitStep_first l0)

theorem wsDel_filter_blank (bs : List Text) :
    WsDel (concatAll (bs.filter (fun b => trim b != []))) (concatAll bs) := by
  induction bs with
  | nil => simp [concatAll]; exact WsDel.nil
  | cons b rest ih =>
      by_cases hb : trim b = []
      · rw [show List.filter (fun b => trim b != []) (b :: rest) =
              List.filter (fun b => trim b != []) rest from by
            simp [List.filter_cons, hb]]
        rw [concatAll_cons]
        exact wsDel_ws_left (trim_eq_nil_allWs hb) ih
      · rw [show List.filter (fun b => trim b != []) (b :: rest) =
              b :: List.filter (fun b => trim b != []) rest from by
            simp [List.filter_cons, hb]]
        rw [concatAll_cons, concatAll_cons]
        exact wsDel_append (wsDel_refl b) ih

theorem wsDel_splitFinal (st : SplitSt) :
    WsDel (concatAll (splitFinal st)) (splitContent st) := by
  unfold splitFinal
  have h1 := wsDel_filter_blank
    (st.blocks ++ (if st.current = [] then [] else [joinLines st.current]))
  by_cases hc : st.current = []
  · rw [if_pos hc] at h1 ⊢
    have h2 : concatAll (st.blocks ++ []) = splitContent st := by
      simp [splitContent, hc, joinLines]
    rw [h2] at h1
    exact h1
  · rw [if_neg hc] at h1 ⊢
    have h2 : concatAll (st.blocks ++ [joinLines st.current]) = splitContent st := by
      simp [splitContent, concatAll_snoc]
    rw [h2] at h1
    exact h1

theorem wsDel_splitIntoBlocks (md : Text) :
    WsDel (concatAll (splitIntoBlocks md)) md :=
  wsDel_trans (wsDel_splitFinal _) (wsDel_splitFoldAll md)

theorem wsDel_appendA {st : StateA} {input : Text}
    (h : WsDel (concatAll st.blocks ++ st.buffer) input) (chunk : Text) :
    WsDel (concatAll (appendA st chunk).blocks ++ (appendA st chunk).buffer)
      (input ++ chunk) := by
  have hstep := wsDel_extractA (st.buffer ++ chunk)
  have h1 : WsDel (concatAll (appendA st chunk).blocks ++ (appendA st chunk).buffer)
      (concatAll st.blocks ++ (st.buffer ++ chunk)) := by
    show WsDel (concatAll (st.blocks ++ (extractA (st.buffer ++ chunk)).1) ++
      (extractA (st.buffer ++ chunk)).2) _
    rw [concatAll_append, List.append_assoc]
    exact wsDel_append (wsDel_refl _) hstep
  have h2 : WsDel (concatAll st.blocks ++ (st.buffer ++ chunk)) (input ++ chunk) := by
    rw [← List.append_assoc]
    exact wsDel_append h (wsDel_refl chunk)
  exact wsDel_trans h1 h2

theorem wsDel_runAppendsAux : ∀ (chunks : List Text) (st : StateA) (input : Text),
    WsDel (concatAll st.blocks ++ st.buffer) input →
    WsDel (concatAll (chunks.foldl appendA st).blocks ++ (chunks.foldl appendA st).buffer)
      (input ++ concatAll chunks) := by
  intro chunks
  induction chunks with
  | nil => intro st input h; simpa [concatAll] using h
  | cons c cs ih =>
      intro st input h
      have := ih (appendA st c) (input ++ c) (wsDel_appendA h c)
      simpa [concatAll_cons, List.append_assoc] using this

theorem wsDel_runAppendsA (chunks : List Text) :
    WsDel (concatAll (runAppendsA chunks).blocks ++ (runAppendsA chunks).buffer)
      (concatAll chunks) := by
  have := wsDel_runAppendsAux chunks ⟨[], []⟩ []
    (by simpa [concatAll] using WsDel.nil)
  simpa using this

theorem wsDel_runA (chunks : List Text) :
    WsDel (concatAll (runA chunks).blocks) (concatAll chunks) := by
  have hrun := wsDel_runAppendsA chunks
  unfold runA finishS
  by_cases ht : trim (runAppendsA chunks).buffer = []
  · rw [if_pos ht]
    have h1 : WsDel (concatAll (runAppendsA chunks).blocks)
        (concatAll (runAppendsA chunks).blocks ++ (runAppendsA chunks).buffer) := by
      have := wsDel_append (wsDel_refl (concatAll (runAppendsA chunks).blocks))
        (wsDel_nil_left (trim_eq_nil_allWs ht))
      simpa using this
    exact wsDel_trans h1 hrun
  · rw [if_neg ht]
    show WsDel (concatAll ((runAppendsA chunks).blocks ++
      splitIntoBlocks (runAppendsA chunks).buffer)) (concatAll chunks)
    rw [concatAll_append]
    exact wsDel_trans
      (wsDel_append (wsDel_refl _) (wsDel_splitIntoBlocks _)) hrun

/-- C1 (counterexample): for the single-chunk input `"a\n\nb"` the
variant-A pipeline materializes blocks `"a"` and `"b"`; their
concatenation `"ab"` does not reproduce the input — the blank-line
separator characters are dropped, so characters differ, contrary to the
claim. -/
theorem C1_counterexample :
    concatAll (runA [toText "a\n\nb"]).blocks ≠ concatAll [toText "a\n\nb"] := by
  decide

/-- C1 (amended): for any sequence of `append` calls followed by
`finish`, the concatenation of the materialized raw block texts, in
order, reproduces the appended input up to deletion of whitespace
characters only (the separators consumed at block boundaries: blank
lines, the whitespace after sentence punctuation, and the newlines
between lines split into different blocks).  No non-whitespace
character is ever lost or reordered. -/
theorem C1_amended_concat_up_to_ws (chunks : List Text) :
    WsDel (concatAll (runA chunks).blocks) (concatAll chunks) :=
  wsDel_runA chunks

/-- C2 (counterexample): after `append("a\n\nb")` (variant A) the
materialized characters plus the buffered characters total 2, while 4
characters were appended — character conservation fails because the
`"\n\n"` separator is dropped. -/
theorem C2_counterexample :
    (concatAll (runAppendsA [toText "a\n\nb"]).blocks).length +
      (runAppendsA [toText "a\n\nb"]).buffer.length ≠
      (concatAll [toText "a\n\nb"]).length := by
  decide

/-- C2 (amended): at every point of an `append`-only run (variant A),
the materialized characters followed by the buffer are the appended
input with only whitespace characters deleted; in particular
materialized + buffered ≤ appended, the deficit consisting exclusively
of dropped whitespace separators. -/
theorem C2_amended_conservation (chunks : List Text) :
    WsDel (concatAll (runAppendsA chunks).blocks ++ (runAppendsA chunks).buffer)
      (concatAll chunks) ∧
    (concatAll (runAppendsA chunks).blocks).length + (runAppendsA chunks).buffer.length ≤
      (concatAll chunks).length := by
  refine ⟨wsDel_runAppendsA chunks, ?_⟩
  have := wsDel_length_le (wsDel_runAppendsA chunks)
  simpa using this

/-- C10: variant A's `extractCompleteBlocks` always returns at most one
completed span (each branch returns a singleton or nothing), and hence a
single `append` grows the materialized block list by at most one. -/
theorem C10_at_most_one_block (buf : Text) (st : StateA) (chunk : Text) :
    (extractA buf).1.length ≤ 1 ∧
    (appendA st chunk).blocks.length ≤ st.blocks.length + 1 := by
  refine ⟨extractA_len_le buf, ?_⟩
  show (st.blocks ++ (extractA (st.buffer ++ chunk)).1).length ≤ st.blocks.length + 1
  rw [List.length_append]
  have := extractA_len_le (st.buffer ++ chunk)
  omega

theorem isPrefixOf_append_self (a b : Text) : a.isPrefixOf (a ++ b) = true := by
  induction a with
  | nil => simp [List.isPrefixOf]
  | cons c cs ih => simp [List.isPrefixOf, ih]

theorem mem_of_mem_trim {c : Char} {l : Text} (h : c ∈ trim l) : c ∈ l := by
  unfold trim at h
  rw [List.mem_reverse] at h
  have h1 : c ∈ (l.dropWhile isWsChar).reverse := (List.dropWhile_sublist _).mem h
  rw [List.mem_reverse] at h1
  exact (List.dropWhile_sublist _).mem h1

theorem not_bt3_isPrefixOf_of_no_bt {l : Text} (h : ∀ c ∈ l, c ≠ btChar) :
    bt3.isPrefixOf (trim l) = false := by
  cases ht : trim l with
  | nil => rfl
  | cons c cs =>
      have hc : c ≠ btChar := by
        apply h
        apply mem_of_mem_trim
        rw [ht]
        exact List.mem_cons_self _ _
      show ([btChar, btChar, btChar] : Text).isPrefixOf (c :: cs) = false
      simp [List.isPrefixOf]
      intro hbc
      exact absurd hbc.symm hc

theorem splitNl_no_nl : ∀ {l : Text}, (∀ c ∈ l, c ≠ '\n') → splitNl l = [l] := by
  intro l
  induction l with
  | nil => intro _; rfl
  | cons c rest ih =>
      intro h
      have hc : c ≠ '\n' := h c (List.mem_cons_self c rest)
      simp only [splitNl, if_neg hc]
      rw [ih (fun x hx => h x (List.mem_cons_of_mem c hx))]

theorem splitNl_append_nl : ∀ {l : Text} (rest : Text), (∀ c ∈ l, c ≠ '\n') →
    splitNl (l ++ '\n' :: rest) = l :: splitNl rest := by
  intro l
  induction l with
  | nil => intro rest _; simp [splitNl]
  | cons c cs ih =>
      intro rest h
      have hc : c ≠ '\n' := h c (List.mem_cons_self _ _)
      simp only [List.cons_append, splitNl, if_neg hc, List.append_eq]
      rw [ih rest (fun x hx => h x (List.mem_cons_of_mem c hx))]

theorem splitNl_joinLines : ∀ {ls : List Text}, ls ≠ [] →
    (∀ l ∈ ls, ∀ c ∈ l, c ≠ '\n') → splitNl (joinLines ls) = ls := by
  intro ls
  induction ls with
  | nil => intro h _; exact absurd rfl h
  | cons l rest ih =>
      intro _ hl
      cases rest with
      | nil => exact splitNl_no_nl (hl l (List.mem_cons_self _ _))
      | cons l2 r =>
          rw [joinLines_cons_cons, splitNl_append_nl _ (hl l (List.mem_cons_self _ _))]
          rw [ih (by simp) (fun x hx c hc => hl x (List.mem_cons_of_mem l hx) c hc)]

theorem trimR_append (a b : Text) :
    trimR (a ++ b) = if trimR b = [] then trimR a else a ++ trimR b := by
  by_cases hb : trimR b = []
  · rw [if_pos hb]
    unfold trimR at hb ⊢
    rw [List.reverse_eq_nil_iff] at hb
    rw [List.reverse_append, List.dropWhile_append, if_pos (by simp [List.isEmpty_iff, hb])]
  · rw [if_neg hb]
    unfold trimR at hb ⊢
    rw [List.reverse_eq_nil_iff] at hb
    rw [List.reverse_append, List.dropWhile_append, if_neg (by simp [List.isEmpty_iff, hb])]
    rw [List.reverse_append, List.reverse_reverse]

theorem trim_eq_trimR_dropWhile (l : Text) : trim l = trimR (l.dropWhile isWsChar) := rfl

theorem dropWhile_cons_of_neg {c : Char} {l : Text} (h : isWsChar c = false) :
    (c :: l).dropWhile isWsChar = c :: l := by
  rw [List.dropWhile_cons]
  simp [h]

theorem isWsChar_btChar : isWsChar btChar = false := by decide

theorem trim_bt3_append (lang : Text) :
    bt3.isPrefixOf (trim (bt3 ++ lang)) = true := by
  rw [trim_eq_trimR_dropWhile]
  have h1 : (bt3 ++ lang).dropWhile isWsChar = bt3 ++ lang :=
    dropWhile_cons_of_neg isWsChar_btChar
  rw [h1, trimR_append bt3 lang]
  by_cases hl : trimR lang = []
  · rw [if_pos hl]
    decide
  · rw [if_neg hl]
    exact isPrefixOf_append_self bt3 (trimR lang)

theorem cfAux_bt3 (rest : Text) : cfAux 0 (bt3 ++ rest) = cfAux 0 rest + 1 := by
  show cfAux 0 (btChar :: btChar :: btChar :: rest) = cfAux 0 rest + 1
  simp [cfAux]

theorem cfAux_no_bt : ∀ {u : Text}, (∀ c ∈ u, c ≠ btChar) → u ≠ [] → ∀ (k : Nat) (v : Text),
    cfAux k (u ++ v) = cfAux 0 v := by
  intro u
  induction u with
  | nil => intro _ h; exact absurd rfl h
  | cons c cs ih =>
      intro h _ k v
      have hc : c ≠ btChar := h c (List.mem_cons_self _ _)
      show cfAux k (c :: (cs ++ v)) = cfAux 0 v
      rw [show cfAux k (c :: (cs ++ v)) = cfAux 0 (cs ++ v) from by simp [cfAux, hc]]
      cases hcs : cs with
      | nil => simp
      | cons d ds =>
          rw [← hcs]
          exact ih (fun x hx => h x (List.mem_cons_of_mem c hx)) (by rw [hcs]; simp) 0 v

theorem countFence_fence (mid : Text) (hmid : ∀ c ∈ mid, c ≠ btChar) (hne : mid ≠ []) :
    countFence (bt3 ++ (mid ++ bt3)) = 2 := by
  unfold countFence
  rw [cfAux_bt3, cfAux_no_bt hmid hne 0 bt3]
  decide

theorem trim_eq_self_of_ends {c d : Char} (hc : isWsChar c = false)
    (hd : isWsChar d = false) (s : Text) :
    trim (c :: (s ++ [d])) = c :: (s ++ [d]) := by
  unfold trim
  have h1 : List.dropWhile isWsChar (c :: (s ++ [d])) = c :: (s ++ [d]) :=
    dropWhile_cons_of_neg hc
  rw [h1]
  have h2 : (c :: (s ++ [d])).reverse = d :: (s.reverse ++ [c]) := by
    simp
  rw [h2]
  have h3 : List.dropWhile isWsChar (d :: (s.reverse ++ [c])) = d :: (s.reverse ++ [c]) :=
    dropWhile_cons_of_neg hd
  rw [h3, ← h2, List.reverse_reverse]

theorem nlTail_append (xs ys : List Text) : nlTail (xs ++ ys) = nlTail xs ++ nlTail ys := by
  unfold nlTail
  rw [List.map_append, concatAll_append]

theorem mem_nlTail {c : Char} : ∀ {ls : List Text}, c ∈ nlTail ls →
    c = '\n' ∨ ∃ l ∈ ls, c ∈ l := by
  intro ls
  induction ls with
  | nil => intro h; simp [nlTail, concatAll] at h
  | cons l rest ih =>
      intro h
      unfold nlTail at h
      rw [List.map_cons, concatAll_cons] at h
      rcases List.mem_append.mp h with h1 | h2
      · rcases List.mem_cons.mp h1 with h1 | h1
        · exact Or.inl h1
        · exact Or.inr ⟨l, List.mem_cons_self _ _, h1⟩
      · rcases ih h2 with h3 | ⟨x, hx, hcx⟩
        · exact Or.inl h3
        · exact Or.inr ⟨x, List.mem_cons_of_mem l hx, hcx⟩

theorem fenceText_decomp (lang : Text) (body : List Text) :
    fenceText lang body = bt3 ++ ((lang ++ (nlTail body ++ ['\n'])) ++ bt3) := by
  unfold fenceText fenceLines
  rw [joinLines_eq_head_nlTail (bt3 ++ lang) (body ++ [bt3]), nlTail_append]
  have h1 : nlTail [bt3] = '\n' :: bt3 := by
    simp [nlTail, concatAll]
  rw [h1]
  simp [bt3, List.append_assoc]

theorem fence_mid_no_bt {lang : Text} {body : List Text}
    (h2 : ∀ c ∈ lang, c ≠ btChar)
    (h3 : ∀ bl ∈ body, ∀ c ∈ bl, c ≠ btChar) :
    ∀ c ∈ lang ++ (nlTail body ++ ['\n']), c ≠ btChar := by
  intro c hc
  rcases List.mem_append.mp hc with h | h
  · exact h2 c h
  · rcases List.mem_append.mp h with h | h
    · rcases mem_nlTail h with rfl | ⟨l, hl, hcl⟩
      · decide
      · exact h3 l hl c hcl
    · rcases List.mem_singleton.mp h with rfl
      decide

theorem trim_fenceText (lang : Text) (body : List Text) :
    trim (fenceText lang body) = fenceText lang body := by
  rw [fenceText_decomp]
  have hshape : bt3 ++ ((lang ++ (nlTail body ++ ['\n'])) ++ bt3) =
      btChar :: ((btChar :: btChar :: ((lang ++ (nlTail body ++ ['\n'])) ++ [btChar, btChar])) ++
        [btChar]) := by
    simp [bt3, List.append_assoc]
  rw [hshape, trim_eq_self_of_ends isWsChar_btChar isWsChar_btChar]

theorem countFence_fenceText (lang : Text) (body : List Text)
    (h2 : ∀ c ∈ lang, c ≠ btChar)
    (h3 : ∀ bl ∈ body, ∀ c ∈ bl, c ≠ btChar) :
    countFence (fenceText lang body) = 2 := by
  rw [fenceText_decomp]
  exact countFence_fence _ (fence_mid_no_bt h2 h3) (by simp)

theorem fenceText_ne_nil (lang : Text) (body : List Text) : fenceText lang body ≠ [] := by
  rw [fenceText_decomp]
  simp [bt3]

theorem isBlockComplete_fence (lang : Text) (body : List Text)
    (h2 : ∀ c ∈ lang, c ≠ btChar)
    (h3 : ∀ bl ∈ body, ∀ c ∈ bl, c ≠ btChar) :
    isBlockComplete (fenceText lang body) (fenceText lang body) = true := by
  unfold isBlockComplete
  rw [trim_fenceText]
  rw [if_pos (by
    rw [fenceText_decomp]
    exact isPrefixOf_append_self bt3 _)]
  rw [countFence_fenceText lang body h2 h3]
  decide

theorem splitStep_open (lang : Text) :
    splitStep ⟨[], [], false, false⟩ (bt3 ++ lang) = ⟨[], [bt3 ++ lang], true, false⟩ := by
  unfold splitStep
  rw [if_pos (trim_bt3_append lang)]
  simp

theorem splitStep_body (st : SplitSt) (hic : st.inCode = true) {bl : Text}
    (hbl : bt3.isPrefixOf (trim bl) = false) :
    splitStep st bl = { st with current := st.current ++ [bl] } := by
  unfold splitStep
  rw [if_neg (by simp [hbl]), if_pos hic]

theorem foldl_body : ∀ (body : List Text) (st : SplitSt), st.inCode = true →
    (∀ bl ∈ body, bt3.isPrefixOf (trim bl) = false) →
    body.foldl splitStep st = { st with current := st.current ++ body } := by
  intro body
  induction body with
  | nil => intro st _ _; simp
  | cons bl rest ih =>
      intro st hic h
      rw [List.foldl_cons, splitStep_body st hic (h bl (List.mem_cons_self _ _))]
      rw [ih { st with current := st.current ++ [bl] } hic
        (fun x hx => h x (List.mem_cons_of_mem bl hx))]
      simp [List.append_assoc]

theorem splitStep_close (st : SplitSt) (hic : st.inCode = true) :
    splitStep st bt3 =
      ⟨st.blocks ++ [joinLines (st.current ++ [bt3])], [], false, st.inTable⟩ := by
  unfold splitStep
  rw [if_pos (by decide : bt3.isPrefixOf (trim bt3) = true), if_pos hic]

theorem splitIntoBlocks_fence (lang : Text) (body : List Text)
    (h1 : ∀ c ∈ lang, c ≠ '\n') (h2 : ∀ c ∈ lang, c ≠ btChar)
    (h3 : ∀ bl ∈ body, (∀ c ∈ bl, c ≠ '\n') ∧ (∀ c ∈ bl, c ≠ btChar)) :
    splitIntoBlocks (fenceText lang body) = [fenceText lang body] := by
  have hnl : ∀ l ∈ fenceLines lang body, ∀ c ∈ l, c ≠ '\n' := by
    intro l hl c hc
    unfold fenceLines at hl
    rcases List.mem_cons.mp hl with rfl | hl
    · rcases List.mem_append.mp hc with h | h
      · intro he; subst he; revert h; decide
      · exact h1 c h
    · rcases List.mem_append.mp hl with hl | hl
      · exact (h3 l hl).1 c hc
      · rcases List.mem_singleton.mp hl with rfl
        intro he; subst he; revert hc; decide
  have hsplit : splitNl (fenceText lang body) = fenceLines lang body :=
    splitNl_joinLines (by simp [fenceLines]) hnl
  unfold splitIntoBlocks
  rw [hsplit]
  show splitFinal ((fenceLines lang body).foldl splitStep ⟨[], [], false, false⟩) = _
  unfold fenceLines
  rw [List.foldl_cons, splitStep_open lang, List.foldl_append]
  rw [foldl_body body _ rfl
    (fun bl hbl => not_bt3_isPrefixOf_of_no_bt ((h3 bl hbl).2))]
  simp only [List.foldl_cons, List.foldl_nil]
  rw [splitStep_close _ rfl]
  rw [show ((⟨[], [bt3 ++ lang], true, false⟩ : SplitSt).current ++ body) ++ [bt3] =
      fenceLines lang body from by simp [fenceLines]]
  unfold splitFinal
  show ((([] ++ [joinLines (fenceLines lang body)] : List Text) ++
      (if ([] : List Text) = [] then [] else [joinLines ([] : List Text)])).filter
      (fun b => trim b != [])) = _
  rw [show (([] ++ [joinLines (fenceLines lang body)] : List Text) ++
      (if ([] : List Text) = [] then [] else [joinLines ([] : List Text)])) =
      [joinLines (fenceLines lang body)] from by simp]
  rw [show joinLines (fenceLines lang body) = fenceText lang body from rfl]
  rw [List.filter_cons]
  rw [if_pos (by
    simp only [bne_iff_ne, ne_eq]
    rw [trim_fenceText]
    exact fenceText_ne_nil lang body)]
  rfl

theorem extractB_fence (lang : Text) (body : List Text)
    (h1 : ∀ c ∈ lang, c ≠ '\n') (h2 : ∀ c ∈ lang, c ≠ btChar)
    (h3 : ∀ bl ∈ body, (∀ c ∈ bl, c ≠ '\n') ∧ (∀ c ∈ bl, c ≠ btChar)) :
    extractB (fenceText lang body) = .ok ([fenceText lang body], []) := by
  unfold extractB
  rw [splitIntoBlocks_fence lang body h1 h2 h3]
  show (if isBlockComplete (fenceText lang body) (fenceText lang body) then
      Except.ok ([fenceText lang body], ([] : Text))
    else _) = _
  rw [if_pos (isBlockComplete_fence lang body h2 (fun bl hbl => (h3 bl hbl).2))]

/-- C3 (counterexample): the full text `"\x60\x60\x60js\nbody\n\x60\x60\x60\n"`
contains one complete fenced code block, but split as the two appends
`"\x60\x60"` and `"\x60js\nbody\n\x60\x60\x60\n"` (N = 2), the variant-B
pipeline materializes three blocks, none of which contains the full
fenced text: the boundaries fall strictly inside the fence. -/
theorem C3_counterexample :
    (runB [toText "``", toText "`js\nbody\n```\n"]).toOption.map StateA.blocks =
      some [toText "``", toText "`js\nbody", toText "```\n"] ∧
    ∀ b ∈ [toText "``", toText "`js\nbody", toText "```\n"],
      b ≠ toText "```js\nbody\n```\n" := by
  constructor
  · rfl
  · decide

/-- C3 (amended): in variant B, when the whole well-formed fenced code
block (opening fence with backtick-free language, backtick-free body
lines, closing fence) arrives within a single `append` on an empty
buffer, the pipeline emits exactly one block containing the full fenced
text; for N ≥ 2 arbitrary splits the guarantee does not hold. -/
theorem C3_amended_single_append (lang : Text) (body : List Text)
    (h1 : ∀ c ∈ lang, c ≠ '\n') (h2 : ∀ c ∈ lang, c ≠ btChar)
    (h3 : ∀ bl ∈ body, (∀ c ∈ bl, c ≠ '\n') ∧ (∀ c ∈ bl, c ≠ btChar)) :
    appendB ⟨[], []⟩ (fenceText lang body) = .ok ⟨[], [fenceText lang body]⟩ := by
  unfold appendB
  rw [show (⟨[], []⟩ : StateA).buffer ++ fenceText lang body = fenceText lang body from by
    simp]
  rw [extractB_fence lang body h1 h2 h3]
  rfl

/-- C3 (witness): the amended theorem applied to the concrete fence
with language `js` and body line `body`. -/
theorem C3_amended_single_append_witness :
    (∀ c ∈ toText "js", c ≠ '\n') ∧
    appendB ⟨[], []⟩ (fenceText (toText "js") [toText "body"]) =
      .ok ⟨[], [fenceText (toText "js") [toText "body"]]⟩ :=
  ⟨by decide, C3_amended_single_append (toText "js") [toText "body"]
    (by decide) (by decide) (by decide)⟩

/-- C7 (counterexample): `append(" ")` on variant B with an empty buffer
rejects — `splitIntoBlocks` yields no blocks, `blocks[blocks.length-1]`
is `undefined`, and `isBlockComplete` calls `.trim()` on it, so a
TypeError propagates out of the public `append`, contrary to the claim
that no failure ever propagates. -/
theorem C7_counterexample : appendB ⟨[], []⟩ (toText " ") = .error () := by
  rfl

/-- C7 (amended): variant B's `append` rejects exactly when the grown
buffer segments to zero blocks (empty or whitespace-only content); when
segmentation yields at least one block, `append` resolves normally (with
a total converter). -/
theorem extractB_isOk {buffer : Text} (h : splitIntoBlocks buffer ≠ []) :
    ∃ r, extractB buffer = .ok r := by
  unfold extractB
  split
  · rename_i hnone
    rw [List.getLast?_eq_none_iff] at hnone
    exact absurd hnone h
  · split
    · exact ⟨_, rfl⟩
    · exact ⟨_, rfl⟩

theorem C7_amended_append_ok (st : StateA) (chunk : Text)
    (h : splitIntoBlocks (st.buffer ++ chunk) ≠ []) :
    ∃ st2, appendB st chunk = .ok st2 := by
  obtain ⟨⟨bs, buf2⟩, hr⟩ := extractB_isOk h
  unfold appendB
  rw [hr]
  exact ⟨_, rfl⟩

/-- C7 (witness): a plain `append("hello")` resolves normally. -/
theorem C7_amended_append_ok_witness :
    splitIntoBlocks ((⟨[], []⟩ : StateA).buffer ++ toText "hello") ≠ [] ∧
    ∃ st2, appendB ⟨[], []⟩ (toText "hello") = .ok st2 :=
  ⟨by decide, C7_amended_append_ok ⟨[], []⟩ (toText "hello") (by decide)⟩

theorem convertAll_ok_map (conv : Conv) : ∀ (bs : List Text),
    (∀ b ∈ bs, ∃ h, conv b = .ok h) →
    convertAll conv bs = .ok (bs.map (fun b => (conv b).toOption.getD [])) := by
  intro bs
  induction bs with
  | nil => intro _; rfl
  | cons b rest ih =>
      intro h
      obtain ⟨hb, hhb⟩ := h b (List.mem_cons_self _ _)
      simp only [convertAll, hhb, List.map_cons]
      rw [ih (fun x hx => h x (List.mem_cons_of_mem b hx))]
      simp [hhb, Except.toOption]

theorem convertAll_error (conv : Conv) : ∀ (bs : List Text),
    (∃ b ∈ bs, ∃ e, conv b = .error e) →
    ∃ e, convertAll conv bs = .error e := by
  intro bs
  induction bs with
  | nil => intro h; simp at h
  | cons b rest ih =>
      intro h
      cases hcb : conv b with
      | error e => exact ⟨e, by simp only [convertAll, hcb]⟩
      | ok hb =>
          obtain ⟨x, hx, e, he⟩ := h
          rcases List.mem_cons.mp hx with rfl | hx
          · rw [hcb] at he
            exact absurd he (by simp)
          · obtain ⟨e2, he2⟩ := ih ⟨x, hx, e, he⟩
            exact ⟨e2, by simp only [convertAll, hcb, he2]⟩

/-- C6 (counterexample): with a converter that fails on the middle
entry, the worker answers the three-entry batch with a single error
response: the siblings are dropped and the batch as a whole fails,
contrary to the claim that only the failing entry degrades. -/
theorem C6_counterexample :
    workerHandle convBad [toText "good", toText "bad", toText "also"] =
      .errorResp "boom" := by
  rfl

/-- C6 (amended): when every entry of the batch converts successfully
the worker posts a same-length, order-preserving result list; when any
entry's conversion fails, the whole batch fails with a single error
response and all entries (including the successful ones) are dropped.
Only the syntax-highlighting fallback inside the code renderer degrades
a single entry to escaped text; a `marked.parse` failure is not
isolated per entry. -/
theorem C6_amended_batch_failure (conv : Conv) (bs : List Text) :
    ((∀ b ∈ bs, ∃ h, conv b = .ok h) →
      workerHandle conv bs =
        .parseResult (bs.map (fun b => (conv b).toOption.getD [])) ∧
      (bs.map (fun b => (conv b).toOption.getD [])).length = bs.length) ∧
    ((∃ b ∈ bs, ∃ e, conv b = .error e) →
      ∃ e, workerHandle conv bs = .errorResp e) := by
  constructor
  · intro h
    constructor
    · unfold workerHandle
      rw [convertAll_ok_map conv bs h]
    · simp
  · intro h
    obtain ⟨e, he⟩ := convertAll_error conv bs h
    refine ⟨e, ?_⟩
    unfold workerHandle
    rw [he]

/-- C6 (witness): the amended theorem at an all-success batch and at a
batch with one failing entry. -/
theorem C6_amended_batch_failure_witness :
    (workerHandle convOk [toText "x", toText "y"] =
        .parseResult (([toText "x", toText "y"] : List Text).map
          (fun b => (convOk b).toOption.getD [])) ∧
      (([toText "x", toText "y"] : List Text).map
          (fun b => (convOk b).toOption.getD [])).length =
        ([toText "x", toText "y"] : List Text).length) ∧
    (∃ e, workerHandle convBad [toText "good", toText "bad"] = .errorResp e) :=
  ⟨(C6_amended_batch_failure convOk [toText "x", toText "y"]).1
      (fun b _ => ⟨b, rfl⟩),
   (C6_amended_batch_failure convBad [toText "good", toText "bad"]).2
      ⟨toText "bad", by decide, "boom", by rfl⟩⟩

/-- C5 (counterexample): in the interleaving append-starts-conversion,
clear(), conversion-resolves (variant B, chunk `"Hello.\n\nWorld"`),
the post-clear processed list contains exactly the two blocks of the
pre-clear conversion — they are not discarded, refuting the claim. -/
theorem C5_counterexample :
    (appendStart ⟨[], [], [], none⟩ (toText "Hello.\n\nWorld")).toOption.map
      (fun st1 => (conversionResolve (clearProc st1)).processed) =
      some [toText "Hello.", toText "World"] ∧
    ([toText "Hello.", toText "World"] : List Text) ≠ [] := by
  constructor
  · rfl
  · decide

/-- C5 (amended): no generation/identity check exists — a conversion
still in flight when `clear()` runs is applied in full when it
resolves: the post-clear processed list and render queue consist
exactly of the pre-clear conversion's blocks. -/
theorem C5_amended_stale_applied (st st1 : ProcState) (chunk : Text) (bs : List Text)
    (h1 : appendStart st chunk = .ok st1) (h2 : st1.inFlight = some bs) :
    (conversionResolve (clearProc st1)).processed = bs ∧
    (conversionResolve (clearProc st1)).rendPending = bs := by
  unfold clearProc conversionResolve
  rw [show ({ st1 with buffer := [], processed := [], rendPending := [] } :
    ProcState).inFlight = st1.inFlight from rfl, h2]
  exact ⟨rfl, rfl⟩

/-- C5 (witness): the amended theorem at the concrete interleaving of
the counterexample. -/
theorem C5_amended_stale_applied_witness :
    appendStart ⟨[], [], [], none⟩ (toText "Hello.\n\nWorld") =
      .ok ⟨[], [], [], some [toText "Hello.", toText "World"]⟩ ∧
    (conversionResolve (clearProc
        ⟨[], [], [], some [toText "Hello.", toText "World"]⟩)).processed =
      [toText "Hello.", toText "World"] :=
  ⟨by rfl,
   (C5_amended_stale_applied ⟨[], [], [], none⟩
      ⟨[], [], [], some [toText "Hello.", toText "World"]⟩
      (toText "Hello.\n\nWorld") [toText "Hello.", toText "World"]
      (by rfl) (by rfl)).1⟩

theorem find?_filter_ne {k k' : Text} (h : k' ≠ k) : ∀ (m : List (Text × Nat)),
    (m.filter (fun kv => kv.1 != k)).find? (fun kv => kv.1 == k') =
      m.find? (fun kv => kv.1 == k') := by
  intro m
  induction m with
  | nil => rfl
  | cons kv m' ih =>
      by_cases hk : kv.1 = k
      · have hne : (kv.1 == k') = false := by
          rw [hk]
          exact beq_eq_false_iff_ne.mpr (Ne.symm h)
        rw [show List.filter (fun kv => kv.1 != k) (kv :: m') =
            List.filter (fun kv => kv.1 != k) m' from by simp [List.filter_cons, hk]]
        rw [ih]
        rw [show List.find? (fun kv => kv.1 == k') (kv :: m') =
            List.find? (fun kv => kv.1 == k') m' from by simp [List.find?_cons, hne]]
      · rw [show List.filter (fun kv => kv.1 != k) (kv :: m') =
            kv :: List.filter (fun kv => kv.1 != k) m' from by simp [List.filter_cons, hk]]
        by_cases hk' : kv.1 = k'
        · have hpos : (kv.1 == k') = true := by simp [hk']
          rw [show List.find? (fun kv => kv.1 == k')
                (kv :: List.filter (fun kv => kv.1 != k) m') = some kv from by
              simp [List.find?_cons, hpos]]
          rw [show List.find? (fun kv => kv.1 == k') (kv :: m') = some kv from by
              simp [List.find?_cons, hpos]]
        · have hneg : (kv.1 == k') = false := beq_eq_false_iff_ne.mpr hk'
          rw [show List.find? (fun kv => kv.1 == k')
                (kv :: List.filter (fun kv => kv.1 != k) m') =
              List.find? (fun kv => kv.1 == k') (List.filter (fun kv => kv.1 != k) m') from by
              simp [List.find?_cons, hneg]]
          rw [ih]
          rw [show List.find? (fun kv => kv.1 == k') (kv :: m') =
              List.find? (fun kv => kv.1 == k') m' from by simp [List.find?_cons, hneg]]

theorem mapGet_set_self (m : List (Text × Nat)) (k : Text) (v : Nat) :
    mapGet (mapSet m k v) k = some v := by
  unfold mapGet mapSet
  simp [List.find?_cons]

theorem mapGet_set_ne (m : List (Text × Nat)) (k : Text) (v : Nat) (k' : Text)
    (h : k' ≠ k) : mapGet (mapSet m k v) k' = mapGet m k' := by
  unfold mapGet mapSet
  have hne : ((k, v).1 == k') = false := beq_eq_false_iff_ne.mpr (Ne.symm h)
  rw [show List.find? (fun kv => kv.1 == k')
        ((k, v) :: List.filter (fun kv => kv.1 != k) m) =
      List.find? (fun kv => kv.1 == k') (List.filter (fun kv => kv.1 != k) m) from by
      simp [List.find?_cons, hne]]
  rw [find?_filter_ne h m]

theorem mapGet_del_ne (m : List (Text × Nat)) (k k' : Text) (h : k' ≠ k) :
    mapGet (mapDel m k) k' = mapGet m k' := by
  unfold mapGet mapDel
  rw [find?_filter_ne h m]

theorem tempCount_append (a b : List Elem) :
    tempCount (a ++ b) = tempCount a + tempCount b := by
  simp [tempCount, List.filter_append]

theorem tempCount_eq_zero {es : List Elem} (h : ∀ e ∈ es, isTemp e.eid = false) :
    tempCount es = 0 := by
  unfold tempCount
  rw [List.length_eq_zero, List.filter_eq_nil]
  intro e he
  simp [h e he]

theorem removeSerial_no_temp {es : List Elem} {s : Nat}
    (h : ∀ e ∈ es, isTemp e.eid = true → e.serial = s) :
    ∀ e ∈ removeSerial es s, isTemp e.eid = false := by
  intro e he
  unfold removeSerial at he
  rw [List.mem_filter] at he
  obtain ⟨hmem, hser⟩ := he
  by_cases ht : isTemp e.eid = true
  · rw [h e hmem ht] at hser
    simp at hser
  · simpa using ht

theorem removeSerial_subset {es : List Elem} {s : Nat} :
    ∀ e ∈ removeSerial es s, e ∈ es := by
  intro e he
  unfold removeSerial at he
  exact (List.mem_filter.mp he).1

theorem temp_ne_of_isTemp {a b : Text} (ha : isTemp a = true) (hb : isTemp b = false) :
    a ≠ b := by
  intro h
  rw [h, hb] at ha
  exact absurd ha (by simp)

theorem passTempStep_no_temp {ps : PassSt} (hinv : PInv ps) {b : RBlock}
    (hb : isTemp b.id = true) :
    ∀ e ∈ (passTempStep ps b).container ++ (passTempStep ps b).fragment,
      isTemp e.eid = false := by
  unfold passTempStep
  rw [if_pos hb]
  cases hl : ps.lastTempId with
  | none =>
      intro e he
      by_cases ht : isTemp e.eid = true
      · obtain ⟨h1, _⟩ := hinv.2 e he ht
        rw [hl] at h1
        exact absurd h1 (by simp)
      · simpa using ht
  | some t =>
      simp only []
      cases hg : mapGet ps.rmap t with
      | none =>
          intro e he
          by_cases ht : isTemp e.eid = true
          · obtain ⟨h1, h2⟩ := hinv.2 e he ht
            rw [hl] at h1
            injection h1 with h1
            rw [← h1, hg] at h2
            exact absurd h2 (by simp)
          · simpa using ht
      | some s =>
          have hall : ∀ e ∈ ps.container ++ ps.fragment, isTemp e.eid = true →
              e.serial = s := by
            intro e he ht
            obtain ⟨h1, h2⟩ := hinv.2 e he ht
            rw [hl] at h1
            injection h1 with h1
            rw [← h1, hg] at h2
            injection h2 with h2
            exact h2.symm
          intro e he
          rcases List.mem_append.mp he with hc | hf
          · exact removeSerial_no_temp
              (fun x hx hxt => hall x (List.mem_append.mpr (Or.inl hx)) hxt) e hc
          · exact removeSerial_no_temp
              (fun x hx hxt => hall x (List.mem_append.mpr (Or.inr hx)) hxt) e hf

theorem passTempStep_lastTempId {ps : PassSt} {b : RBlock} (hb : isTemp b.id = true) :
    (passTempStep ps b).lastTempId = some b.id := by
  unfold passTempStep
  rw [if_pos hb]
  cases hl : ps.lastTempId with
  | none => rfl
  | some t =>
      simp only []
      cases hg : mapGet ps.rmap t with
      | none => rfl
      | some s => rfl

theorem passTempStep_id {ps : PassSt} {b : RBlock} (hb : isTemp b.id = false) :
    passTempStep ps b = ps := by
  unfold passTempStep
  rw [if_neg (by simp [hb])]

theorem pinv_passStep {ps : PassSt} (hinv : PInv ps) (b : RBlock) :
    PInv (passStep ps b) := by
  by_cases hb : isTemp b.id = true
  · have hnt := passTempStep_no_temp hinv hb
    constructor
    · show tempCount ((passTempStep ps b).container ++
        ((passTempStep ps b).fragment ++ [⟨(passTempStep ps b).nextSerial, b.id⟩])) ≤ 1
      rw [tempCount_append, tempCount_append]
      rw [tempCount_eq_zero (fun e he => hnt e (List.mem_append.mpr (Or.inl he)))]
      rw [tempCount_eq_zero (fun e he => hnt e (List.mem_append.mpr (Or.inr he)))]
      simp [tempCount, hb]
    · intro e he ht
      show (passTempStep ps b).lastTempId = some e.eid ∧
        mapGet (mapSet (passTempStep ps b).rmap b.id (passTempStep ps b).nextSerial)
          e.eid = some e.serial
      rcases List.mem_append.mp he with hc | hf
      · exact absurd ht (by simp [hnt e (List.mem_append.mpr (Or.inl hc))])
      · rcases List.mem_append.mp hf with hf | hf
        · exact absurd ht (by simp [hnt e (List.mem_append.mpr (Or.inr hf))])
        · rcases List.mem_singleton.mp hf with rfl
          refine ⟨passTempStep_lastTempId hb, ?_⟩
          exact mapGet_set_self _ _ _
  · have hb' : isTemp b.id = false := by simpa using hb
    rw [show passStep ps b = { ps with
        fragment := ps.fragment ++ [⟨ps.nextSerial, b.id⟩],
        rmap := mapSet ps.rmap b.id ps.nextSerial,
        nextSerial := ps.nextSerial + 1 } from by
      unfold passStep
      rw [passTempStep_id hb']]
    constructor
    · show tempCount (ps.container ++ (ps.fragment ++ [⟨ps.nextSerial, b.id⟩])) ≤ 1
      rw [tempCount_append, tempCount_append]
      have h0 : tempCount [(⟨ps.nextSerial, b.id⟩ : Elem)] = 0 := by
        simp [tempCount, hb']
      rw [h0]
      have := hinv.1
      rw [tempCount_append] at this
      omega
    · intro e he ht
      rcases List.mem_append.mp he with hc | hf
      · obtain ⟨h1, h2⟩ := hinv.2 e (List.mem_append.mpr (Or.inl hc)) ht
        exact ⟨h1, by rw [mapGet_set_ne _ _ _ _ (temp_ne_of_isTemp ht hb')]; exact h2⟩
      · rcases List.mem_append.mp hf with hf | hf
        · obtain ⟨h1, h2⟩ := hinv.2 e (List.mem_append.mpr (Or.inr hf)) ht
          exact ⟨h1, by rw [mapGet_set_ne _ _ _ _ (temp_ne_of_isTemp ht hb')]; exact h2⟩
        · rcases List.mem_singleton.mp hf with rfl
          exact absurd ht (by simp [hb'])

theorem pinv_foldl : ∀ (chunk : List RBlock) (ps : PassSt), PInv ps →
    PInv (chunk.foldl passStep ps) := by
  intro chunk
  induction chunk with
  | nil => intro ps h; exact h
  | cons b rest ih => intro ps h; exact ih _ (pinv_passStep h b)

theorem rinv_tempCleanup {st : RState} (hinv : RInv st) (blocks : List RBlock) :
    RInv (tempCleanup st blocks) := by
  unfold tempCleanup
  cases hl : st.lastTempId with
  | none => exact hinv
  | some t =>
      cases blocks with
      | nil => exact hinv
      | cons b bs =>
          simp only []
          cases hg : mapGet st.rmap t with
          | none => exact hinv
          | some s =>
              simp only []
              by_cases hb : isTemp b.id = true
              · rw [if_pos hb]
                exact hinv
              · rw [if_neg hb]
                have hall : ∀ e ∈ st.container, isTemp e.eid = true → e.serial = s := by
                  intro e he ht
                  obtain ⟨h1, h2⟩ := hinv.2 e he ht
                  rw [hl] at h1
                  injection h1 with h1
                  rw [← h1, hg] at h2
                  injection h2 with h2
                  exact h2.symm
                have hnt := removeSerial_no_temp hall
                constructor
                · show tempCount (removeSerial st.container s) ≤ 1
                  rw [tempCount_eq_zero hnt]
                  omega
                · intro e he ht
                  exact absurd ht (by simp [hnt e he])

theorem rinv_fields {st st' : RState} (hinv : RInv st)
    (hc : st'.container = st.container) (hm : st'.rmap = st.rmap)
    (hl : st'.lastTempId = st.lastTempId) : RInv st' := by
  constructor
  · rw [hc]
    exact hinv.1
  · intro e he ht
    rw [hc] at he
    rw [hl, hm]
    exact hinv.2 e he ht

theorem scheduleRenderR_fields (st : RState) :
    (scheduleRenderR st).container = st.container ∧
    (scheduleRenderR st).rmap = st.rmap ∧
    (scheduleRenderR st).lastTempId = st.lastTempId ∧
    (scheduleRenderR st).pending = st.pending ∧
    (scheduleRenderR st).nextSerial = st.nextSerial := by
  unfold scheduleRenderR
  split
  · exact ⟨rfl, rfl, rfl, rfl, rfl⟩
  · exact ⟨rfl, rfl, rfl, rfl, rfl⟩

theorem rinv_appendBlocksR {st : RState} (hinv : RInv st) (blocks : List RBlock) :
    RInv (appendBlocksR st blocks) := by
  have h1 := rinv_tempCleanup hinv blocks
  have h2 : RInv ({ tempCleanup st blocks with
      pending := (tempCleanup st blocks).pending ++ blocks }) :=
    rinv_fields h1 rfl rfl rfl
  unfold appendBlocksR
  obtain ⟨hc, hm, hl, _, _⟩ := scheduleRenderR_fields
    ({ tempCleanup st blocks with
      pending := (tempCleanup st blocks).pending ++ blocks })
  exact rinv_fields h2 hc hm hl

theorem rinv_renderPassR (cs dm rt : Nat) {st : RState} (hinv : RInv st) :
    RInv (renderPassR cs dm rt st) := by
  unfold renderPassR
  by_cases h1 : st.isRendering = true
  · rw [if_pos h1]
    exact hinv
  · rw [if_neg h1]
    by_cases h2 : st.pending = []
    · rw [if_pos h2]
      exact hinv
    · rw [if_neg h2]
      have hpass : PInv (passRun cs st) := by
        apply pinv_foldl
        constructor
        · show tempCount (st.container ++ []) ≤ 1
          rw [List.append_nil]
          exact hinv.1
        · intro e he ht
          rw [List.append_nil] at he
          exact hinv.2 e he ht
      exact ⟨hpass.1, fun e he ht => hpass.2 e he ht⟩

theorem rinv_stepR (cs dm : Nat) {st : RState} (hinv : RInv st) (ev : REv) :
    RInv (stepR cs dm st ev) := by
  cases ev with
  | enq blocks => exact rinv_appendBlocksR hinv blocks
  | raf rt =>
      show RInv (if st.rafScheduled = true then
        renderPassR cs dm rt { st with rafScheduled := false } else st)
      by_cases hraf : st.rafScheduled = true
      · rw [if_pos hraf]
        exact rinv_renderPassR cs dm rt (rinv_fields hinv rfl rfl rfl)
      · rw [if_neg hraf]
        exact hinv
  | timeoutFire =>
      show RInv (match st.timeoutDelay with
        | some _ => scheduleRenderR { st with timeoutDelay := none }
        | none => st)
      cases ht : st.timeoutDelay with
      | none => exact hinv
      | some d =>
          obtain ⟨hc, hm, hl, _, _⟩ :=
            scheduleRenderR_fields ({ st with timeoutDelay := none })
          exact rinv_fields (rinv_fields hinv rfl rfl rfl) hc hm hl
  | clearEv =>
      constructor
      · show tempCount [] ≤ 1
        simp [tempCount]
      · intro e he
        exact absurd (show e ∈ ([] : List Elem) from he) (List.not_mem_nil e)

theorem rinv_runR (cs dm : Nat) (evs : List REv) : RInv (runR cs dm evs) := by
  suffices h : ∀ (l : List REv) (st : RState), RInv st →
      RInv (l.foldl (stepR cs dm) st) by
    apply h
    constructor
    · show tempCount [] ≤ 1
      simp [tempCount]
    · intro e he
      exact absurd (show e ∈ ([] : List Elem) from he) (List.not_mem_nil e)
  intro l
  induction l with
  | nil => intro st h; exact h
  | cons ev evs ih =>
      intro st h
      exact ih _ (rinv_stepR cs dm h ev)

theorem prov_passStep {C : List Elem} {n0 : Nat} {ps : PassSt}
    (h : Prov C n0 ps) (b : RBlock) : Prov C n0 (passStep ps b) := by
  obtain ⟨h1, h2, h3⟩ := h
  have haux : (∀ e ∈ (passTempStep ps b).container, e ∈ C) ∧
      (∀ e ∈ (passTempStep ps b).fragment, n0 ≤ e.serial) ∧
      n0 ≤ (passTempStep ps b).nextSerial := by
    unfold passTempStep
    by_cases hb : isTemp b.id = true
    · rw [if_pos hb]
      cases hl : ps.lastTempId with
      | none => exact ⟨h1, h2, h3⟩
      | some t =>
          simp only []
          cases hg : mapGet ps.rmap t with
          | none => exact ⟨h1, h2, h3⟩
          | some s =>
              refine ⟨?_, ?_, h3⟩
              · intro e he
                exact h1 e (removeSerial_subset e he)
              · intro e he
                exact h2 e (removeSerial_subset e he)
    · rw [if_neg hb]
      exact ⟨h1, h2, h3⟩
  obtain ⟨g1, g2, g3⟩ := haux
  refine ⟨g1, ?_, ?_⟩
  · intro e he
    rcases List.mem_append.mp he with hf | hf
    · exact g2 e hf
    · rcases List.mem_singleton.mp hf with rfl
      exact g3
  · show n0 ≤ (passTempStep ps b).nextSerial + 1
    omega

theorem prov_passRun (cs : Nat) (st : RState) :
    Prov st.container st.nextSerial (passRun cs st) := by
  unfold passRun
  suffices h : ∀ (chunk : List RBlock) (ps : PassSt),
      Prov st.container st.nextSerial ps →
      Prov st.container st.nextSerial (chunk.foldl passStep ps) by
    apply h
    exact ⟨fun e he => he, fun e he => absurd he (List.not_mem_nil e), Nat.le_refl _⟩
  intro chunk
  induction chunk with
  | nil => intro ps h; exact h
  | cons b rest ih =>
      intro ps h
      exact ih _ (prov_passStep h b)

theorem tempCleanup_container_subset (st : RState) (blocks : List RBlock) :
    ∀ e ∈ (tempCleanup st blocks).container, e ∈ st.container := by
  unfold tempCleanup
  cases hl : st.lastTempId with
  | none => exact fun e he => he
  | some t =>
      cases blocks with
      | nil => exact fun e he => he
      | cons b bs =>
          simp only []
          cases hg : mapGet st.rmap t with
          | none => exact fun e he => he
          | some s =>
              simp only []
              by_cases hb : isTemp b.id = true
              · rw [if_pos hb]
                exact fun e he => he
              · rw [if_neg hb]
                exact fun e he => removeSerial_subset e he

/-- C4: over every renderer history (arbitrary interleavings of
`appendBlocks`, animation-frame fires, `setTimeout` follow-ups and
`clear`), at most one provisional (`__temp__`-id) element is present in
the materialized container; and after any single operation every
materialized element either is exactly an element that was already
materialized (never edited in place) or is a freshly created one. -/
theorem C4_provisional_invariant (cs dm : Nat) (evs : List REv)
    (st : RState) (ev : REv) :
    tempCount (runR cs dm evs).container ≤ 1 ∧
    (∀ e ∈ (stepR cs dm st ev).container, e ∈ st.container ∨ st.nextSerial ≤ e.serial) := by
  constructor
  · exact (rinv_runR cs dm evs).1
  · cases ev with
    | enq blocks =>
        intro e he
        left
        have hc := (scheduleRenderR_fields ({ tempCleanup st blocks with
          pending := (tempCleanup st blocks).pending ++ blocks })).1
        rw [show (stepR cs dm st (.enq blocks)).container =
            (tempCleanup st blocks).container from hc] at he
        exact tempCleanup_container_subset st blocks e he
    | raf rt =>
        intro e he
        by_cases hraf : st.rafScheduled = true
        · rw [show stepR cs dm st (.raf rt) =
              renderPassR cs dm rt { st with rafScheduled := false } from by
            show (if st.rafScheduled = true then
              renderPassR cs dm rt { st with rafScheduled := false } else st) = _
            rw [if_pos hraf]] at he
          unfold renderPassR at he
          by_cases h1 : ({ st with rafScheduled := false } : RState).isRendering = true
          · rw [if_pos h1] at he
            exact Or.inl he
          · rw [if_neg h1] at he
            by_cases h2 : ({ st with rafScheduled := false } : RState).pending = []
            · rw [if_pos h2] at he
              exact Or.inl he
            · rw [if_neg h2] at he
              obtain ⟨p1, p2, _⟩ := prov_passRun cs ({ st with rafScheduled := false })
              rcases List.mem_append.mp he with hcm | hfm
              · exact Or.inl (p1 e hcm)
              · exact Or.inr (p2 e hfm)
        · rw [show stepR cs dm st (.raf rt) = st from by
            show (if st.rafScheduled = true then
              renderPassR cs dm rt { st with rafScheduled := false } else st) = _
            rw [if_neg hraf]] at he
          exact Or.inl he
    | timeoutFire =>
        intro e he
        left
        revert he
        show e ∈ (match st.timeoutDelay with
          | some _ => scheduleRenderR { st with timeoutDelay := none }
          | none => st).container → e ∈ st.container
        cases ht : st.timeoutDelay with
        | none => exact fun x => x
        | some d =>
            intro he
            have hc := (scheduleRenderR_fields ({ st with timeoutDelay := none })).1
            rw [hc] at he
            exact he
    | clearEv =>
        intro e he
        exact absurd (show e ∈ ([] : List Elem) from he) (List.not_mem_nil e)

theorem passStep_tempFree {ps : PassSt} {b : RBlock} (hb : isTemp b.id = false) :
    (passStep ps b).container = ps.container ∧
    (passStep ps b).fragment = ps.fragment ++ [⟨ps.nextSerial, b.id⟩] ∧
    (passStep ps b).nextSerial = ps.nextSerial + 1 := by
  unfold passStep
  rw [passTempStep_id hb]
  exact ⟨rfl, rfl, rfl⟩

theorem passRun_tempFree : ∀ (chunk : List RBlock) (ps : PassSt),
    (∀ b ∈ chunk, isTemp b.id = false) →
    (chunk.foldl passStep ps).container = ps.container ∧
    (chunk.foldl passStep ps).fragment.map Elem.eid =
      ps.fragment.map Elem.eid ++ chunk.map RBlock.id := by
  intro chunk
  induction chunk with
  | nil => intro ps _; exact ⟨rfl, by simp⟩
  | cons b rest ih =>
      intro ps h
      obtain ⟨h1, h2, h3⟩ := @passStep_tempFree ps b (h b (List.mem_cons_self _ _))
      rw [List.foldl_cons]
      obtain ⟨ih1, ih2⟩ := ih (passStep ps b) (fun x hx => h x (List.mem_cons_of_mem b hx))
      constructor
      · rw [ih1, h1]
      · rw [ih2, h2]
        simp

/-- C8: drains are single-flight (a drain scheduled while one is
already scheduled, and a pass entered while one is rendering or with an
empty queue, are no-ops); a real pass removes exactly
`min(chunkSize, queue length)` blocks from the head of the pending FIFO
and appends them to the container in order as one batch; and when the
queue is still non-empty afterwards, the follow-up drain is scheduled
with delay `min(debounceMs, 8)` if the pass exceeded the 16 ms refresh
budget and with delay 0 otherwise. -/
theorem C8_drain_behavior (cs dm rt : Nat) (st : RState) :
    (st.rafScheduled = true → scheduleRenderR st = st) ∧
    (st.isRendering = true → renderPassR cs dm rt st = st) ∧
    (st.pending = [] → renderPassR cs dm rt st = st) ∧
    (st.isRendering = false → st.pending ≠ [] →
      (∀ b ∈ st.pending.take cs, isTemp b.id = false) →
      (renderPassR cs dm rt st).container.map Elem.eid =
          st.container.map Elem.eid ++ (st.pending.take cs).map RBlock.id ∧
        (renderPassR cs dm rt st).pending = st.pending.drop cs ∧
        (st.pending.drop cs ≠ [] →
          (renderPassR cs dm rt st).timeoutDelay =
            some (if 16 < rt then min dm 8 else 0)) ∧
        (st.pending.drop cs = [] →
          (renderPassR cs dm rt st).timeoutDelay = st.timeoutDelay)) := by
  refine ⟨?_, ?_, ?_, ?_⟩
  · intro h
    unfold scheduleRenderR
    rw [if_pos h]
  · intro h
    unfold renderPassR
    rw [if_pos h]
  · intro h
    unfold renderPassR
    by_cases h1 : st.isRendering = true
    · rw [if_pos h1]
    · rw [if_neg h1, if_pos h]
  · intro h1 h2 h3
    have hpassR : renderPassR cs dm rt st = afterPass cs dm rt st := by
      unfold renderPassR
      rw [if_neg (by simp [h1]), if_neg h2]
    obtain ⟨hc, hf⟩ := passRun_tempFree (st.pending.take cs)
      ⟨st.container, st.rmap, [], st.lastTempId, st.nextSerial⟩ h3
    rw [hpassR]
    refine ⟨?_, rfl, ?_, ?_⟩
    · show ((passRun cs st).container ++ (passRun cs st).fragment).map Elem.eid = _
      rw [List.map_append]
      rw [show (passRun cs st).container =
          (⟨st.container, st.rmap, [], st.lastTempId, st.nextSerial⟩ : PassSt).container
        from hc]
      rw [show (passRun cs st).fragment.map Elem.eid =
          ((⟨st.container, st.rmap, [], st.lastTempId, st.nextSerial⟩ :
            PassSt).fragment.map Elem.eid ++ (st.pending.take cs).map RBlock.id)
        from hf]
      simp
    · intro hne
      show (if st.pending.drop cs = [] then st.timeoutDelay
        else some (if 16 < rt then min dm 8 else 0)) = _
      rw [if_neg hne]
    · intro heq
      show (if st.pending.drop cs = [] then st.timeoutDelay
        else some (if 16 < rt then min dm 8 else 0)) = _
      rw [if_pos heq]

/-- C8 (witness): the drain-behavior theorem at a concrete renderer
state with two queued real blocks, `chunkSize = 1`, `debounceMs = 16`
and a pass that took 20 ms. -/
theorem C8_drain_behavior_witness :
    (renderPassR 1 16 20 rSt0).container.map Elem.eid =
        rSt0.container.map Elem.eid ++ (rSt0.pending.take 1).map RBlock.id ∧
      (renderPassR 1 16 20 rSt0).pending = rSt0.pending.drop 1 ∧
      (rSt0.pending.drop 1 ≠ [] →
        (renderPassR 1 16 20 rSt0).timeoutDelay = some (if 16 < 20 then min 16 8 else 0)) ∧
      (rSt0.pending.drop 1 = [] →
        (renderPassR 1 16 20 rSt0).timeoutDelay = rSt0.timeoutDelay) :=
  (C8_drain_behavior 1 16 20 rSt0).2.2.2 (by decide) (by decide) (by decide)

/-- C9: `clear(); clear()` is identical to a single `clear()`: buffer,
processed-block list, pending queue, materialized container, rendered
map and the scheduled-drain flag all agree (the fields `clear` does not
touch — `lastTempBlockId`, `isRendering`, the serial counter and a
pending `setTimeout` — are preserved by both sides alike). -/
theorem C9_clear_idempotent (s : SysState) : sysClear (sysClear s) = sysClear s := rfl

end MarkdownStream
